import Mathlib

/-!
Verification of the TinyAgent (SqueezeAILab/TinyAgent) planner core against its
natural-language specification.

This file shallowly embeds the plan-parsing layer of the repository:

* `src/utils/plan_utils.py` — the regex patterns `THOUGHT_PATTERN` and
  `ACTION_PATTERN`, the argument parser `_parse_llm_compiler_action_args`,
  the batch parser `parse_plan`, and the joinner-output parser
  `get_parsed_joinner_output`;
* `src/llm_compiler/planner.py` — `generate_llm_compiler_prompt`, the
  `StreamingGraphParser` (`ingest_token` / `finalize`), the
  `LLMCompilerCallback` error-recovery path, and `Planner.run_llm`'s
  human-prompt construction;
* `run_tiny_agent_server.py` — the transport loop's handling of the
  `###LLM_ERROR_TOKEN###` marker.

Python strings are modelled as `List Char`.  The specific regular expressions
used by the source are small enough that their (backtracking) semantics on the
relevant patterns is deterministic; they are embedded as executable matching
functions whose case analysis follows the patterns character class by
character class.
-/

set_option maxRecDepth 4000

namespace TinyAgentSpec

/-! ## Character classes of the Python regexes

`\s`, `\d` and `\w` as used by `re` on ASCII text. -/

/-- Python `\s` (ASCII whitespace). -/
def isWS (c : Char) : Bool :=
  c = ' ' || c = '\t' || c = '\n' || c = '\r' || c = '\x0b' || c = '\x0c'

/-- Python `\d`. -/
def isDigitC (c : Char) : Bool :=
  '0' ≤ c && c ≤ '9'

/-- Python `\w` (ASCII word character). -/
def isWordC (c : Char) : Bool :=
  ('a' ≤ c && c ≤ 'z') || ('A' ≤ c && c ≤ 'Z') || isDigitC c || c = '_'

/-- Python `str.strip()`: remove leading and trailing whitespace. -/
def pyStrip (s : List Char) : List Char :=
  ((s.dropWhile isWS).reverse.dropWhile isWS).reverse

/-- `int(...)` on a nonempty digit string. -/
def digitsToNat (ds : List Char) : Nat :=
  ds.foldl (fun n c => n * 10 + (c.toNat - '0'.toNat)) 0

/-! ## Python values and the argument parser

`_parse_llm_compiler_action_args` (src/utils/plan_utils.py, lines 13–26)
applies `ast.literal_eval` to the raw argument string and wraps any
non-list/non-tuple result as a one-element tuple.  The literal evaluator
itself (part of the Python standard library) is kept as a parameter
`litEval`; `litEval args = none` models `ast.literal_eval` raising. -/

/-- A Python value as produced by `ast.literal_eval` (restricted to the
constructors the plan parser can observe). -/
inductive PyValue where
  | vstr (s : List Char)
  | vint (n : Int)
  | vbool (b : Bool)
  | vnone
  | vlist (xs : List PyValue)
  | vtuple (xs : List PyValue)

/-- Python `isinstance(v, list) or isinstance(v, tuple)`. -/
def pyIsListOrTuple : PyValue → Bool
  | .vlist _ => true
  | .vtuple _ => true
  | _ => false

/-- `_parse_llm_compiler_action_args` from src/utils/plan_utils.py.  The
`try: args = ast.literal_eval(args) except: args = args` block is modelled by
`litEval` returning `none` on failure. -/
def parse_llm_compiler_action_args (litEval : List Char → Option PyValue)
    (args : List Char) : PyValue :=
  if args = [] then .vtuple []
  else
    let v : PyValue :=
      match litEval args with
      | some v => v
      | none => .vstr args
    if pyIsListOrTuple v then v else .vtuple [v]

/-! ## The plan regexes

```
THOUGHT_PATTERN = r"Thought: ([^\n]*)"
ACTION_PATTERN  = r"\s*\n*(\d+)\. (\w+)\((.*)\)(\s*#\w+\n)?"
```
(src/utils/plan_utils.py, lines 9–10; the same patterns are used by the
streaming parser in src/llm_compiler/planner.py.)

Backtracking on these patterns is deterministic, which lets us embed them as
functions:
* `\s*\n*` followed by `\d`: any split of the leading whitespace run that is
  not the whole run leaves a whitespace character where a digit is required,
  so the run is consumed entirely.
* `(\d+)\. `, `(\w+)\(`: shortening the greedy run leaves a digit (resp. word
  character) where the literal is required, so the runs are maximal.
* `(.*)\)`: `.` does not cross a newline, so the group ends at the **last**
  `)` before the next newline; since the rest of the pattern is an optional
  group followed by the end of the pattern, no further backtracking happens.
* `(\s*#\w+\n)?`: `#` is not whitespace and `\n` is not a word character, so
  the group matches exactly when the maximal whitespace run is followed by
  `#`, a nonempty word run and a newline; otherwise it matches empty. -/

/-- The literal `Thought: `. -/
def thoughtLit : List Char := ['T', 'h', 'o', 'u', 'g', 'h', 't', ':', ' ']

/-- `re.match(THOUGHT_PATTERN, s)`: anchored match of `Thought: ([^\n]*)`,
returning the captured group. -/
def matchThought (s : List Char) : Option (List Char) :=
  if thoughtLit.isPrefixOf s then
    some ((s.drop thoughtLit.length).takeWhile (fun c => c ≠ '\n'))
  else none

/-- The optional trailing group `(\s*#\w+\n)?` of `ACTION_PATTERN`: returns
the remainder of the input after the group (the input itself when the group
matches empty). -/
def commentSkip (s : List Char) : List Char :=
  match s.dropWhile isWS with
  | c :: v =>
    if c = '#' then
      if v.takeWhile isWordC = [] then s
      else
        match v.drop ((v.takeWhile isWordC).length) with
        | d :: r => if d = '\n' then r else s
        | [] => s
    else s
  | [] => s

/-- Split a (newline-free) line at its **last** `)`:
`lastParenSplit l = some (a, b)` iff `l = a ++ ')' :: b` and `')' ∉ b`. -/
def lastParenSplit : List Char → Option (List Char × List Char)
  | [] => none
  | c :: r =>
    match lastParenSplit r with
    | some (a, b) => some (c :: a, b)
    | none => if c = ')' then some ([], r) else none

/-- The three capture groups of `ACTION_PATTERN` (the trailing comment group
is dropped, as both source parsers discard it). -/
structure ActionMatch where
  idx : Nat
  name : List Char
  args : List Char

/-- `re.match(ACTION_PATTERN, s)`: anchored match of
`\s*\n*(\d+)\. (\w+)\((.*)\)(\s*#\w+\n)?`, returning the groups and the
remainder of the input after the whole match. -/
def actionCore (s : List Char) : Option (ActionMatch × List Char) :=
  let s1 := s.dropWhile isWS
  let ds := s1.takeWhile isDigitC
  if ds = [] then none
  else
    match s1.drop ds.length with
    | c1 :: c2 :: s3 =>
      if c1 = '.' ∧ c2 = ' ' then
        let w := s3.takeWhile isWordC
        if w = [] then none
        else
          match s3.drop w.length with
          | c3 :: s5 =>
            if c3 = '(' then
              let line := s5.takeWhile (fun c => c ≠ '\n')
              match lastParenSplit line with
              | some (args, afterP) =>
                some (⟨digitsToNat ds, w, args⟩,
                  commentSkip (afterP ++ s5.drop line.length))
              | none => none
            else none
          | [] => none
      else none
    | _ => none

/-- One tuple of `re.findall(rf"(?:{THOUGHT_PATTERN}\n)?{ACTION_PATTERN}", plan)`
(src/utils/plan_utils.py, line 32): the optional thought group plus the
action groups. -/
structure PlanMatch where
  thought : Option (List Char)
  idx : Nat
  name : List Char
  args : List Char

/-- One attempt of the combined pattern at the current position: the optional
thought branch is tried first (greedy option); if `Thought: ([^\n]*)\n` and
the subsequent action both match, that wins, otherwise the action pattern is
tried alone at the same position. -/
def tryMatch (s : List Char) : Option (PlanMatch × List Char) :=
  let viaThought : Option (PlanMatch × List Char) :=
    match matchThought s with
    | some t =>
      match s.drop (thoughtLit.length + t.length) with
      | c :: r2 =>
        if c = '\n' then
          (actionCore r2).map fun mr => (⟨some t, mr.1.idx, mr.1.name, mr.1.args⟩, mr.2)
        else none
      | [] => none
    | none => none
  match viaThought with
  | some r => some r
  | none => (actionCore s).map fun mr => (⟨none, mr.1.idx, mr.1.name, mr.1.args⟩, mr.2)

/-- `re.findall`: scan left to right; at each position try the pattern; on
success record the groups and resume after the match, otherwise advance one
character.  `fuel` bounds the number of steps; `findAllPlan` supplies
`s.length + 1`, which is sufficient because every successful match consumes
at least one character (`tryMatch_rest_lt` below). -/
def findAllAux : Nat → List Char → List PlanMatch
  | 0, _ => []
  | fuel + 1, s =>
    match tryMatch s with
    | some (g, rest) => g :: findAllAux fuel rest
    | none =>
      match s with
      | [] => []
      | _ :: t => findAllAux fuel t

/-- `re.findall(rf"(?:{THOUGHT_PATTERN}\n)?{ACTION_PATTERN}", plan)`. -/
def findAllPlan (s : List Char) : List PlanMatch :=
  findAllAux (s.length + 1) s

/-! ## Tasks and the batch parser `parse_plan` -/

/-- The literal `join`. -/
def joinName : List Char := ['j', 'o', 'i', 'n']

/-- A `Task` (src/llm_compiler/task_fetching_unit.py).  The `tool` callable
and `stringify_rule` fields are functions supplied by the caller and carry no
information relevant to the parsing claims; they are omitted here. -/
structure Task where
  idx : Nat
  name : List Char
  args : PyValue
  dependencies : List Nat
  thought : Option (List Char)
  is_join : Bool
  observation : Option (List Char) := none

/-- The dummy task built for each match by `parse_plan`
(src/utils/plan_utils.py, lines 44–53): the thought group is discarded
(`thought=None`) and `dependencies=[]`. -/
def mkBatchTask (litEval : List Char → Option PyValue) (m : PlanMatch) : Task :=
  { idx := m.idx
    name := m.name
    args := parse_llm_compiler_action_args litEval m.args
    dependencies := []
    thought := none
    is_join := m.name = joinName }

/-- Python `dict` insertion: overwriting an existing key keeps its position,
a new key is appended. -/
def insertTask : List (Nat × Task) → Nat → Task → List (Nat × Task)
  | [], k, t => [(k, t)]
  | (k', t') :: g, k, t =>
    if k' = k then (k, t) :: g else (k', t') :: insertTask g k t

/-- The match loop of `parse_plan`: insert each task into `graph_dict`,
breaking after the first `join`. -/
def parse_plan_aux (litEval : List Char → Option PyValue) :
    List PlanMatch → List (Nat × Task) → List (Nat × Task)
  | [], g => g
  | m :: ms, g =>
    let t := mkBatchTask litEval m
    let g' := insertTask g m.idx t
    if t.is_join then g' else parse_plan_aux litEval ms g'

/-- `parse_plan` (src/utils/plan_utils.py, lines 29–59), returning the
`graph_dict` as an insertion-ordered association list. -/
def parse_plan (litEval : List Char → Option PyValue) (s : List Char) :
    List (Nat × Task) :=
  parse_plan_aux litEval (findAllPlan s) []

/-! ## Fuel adequacy of `findAllPlan`

Every successful `tryMatch` consumes at least one character, so scanning a
string of length `n` takes at most `n + 1` steps and the fuel supplied by
`findAllPlan` never runs out. -/

theorem length_dropWhile_le (p : Char → Bool) (l : List Char) :
    (l.dropWhile p).length ≤ l.length := by
  induction l with
  | nil => simp [List.dropWhile]
  | cons a t ih =>
    by_cases h : p a <;> simp [List.dropWhile, h] <;> omega

theorem length_takeWhile_le (p : Char → Bool) (l : List Char) :
    (l.takeWhile p).length ≤ l.length := by
  induction l with
  | nil => simp [List.takeWhile]
  | cons a t ih =>
    by_cases h : p a <;> simp [List.takeWhile, h] <;> omega

theorem commentSkip_length_le (s : List Char) :
    (commentSkip s).length ≤ s.length := by
  simp only [commentSkip]
  split
  · next c v hv =>
    have h1 : (c :: v).length ≤ s.length := by
      rw [← hv]; exact length_dropWhile_le isWS s
    split
    · split
      · exact le_refl _
      · split
        · next d r hr =>
          split
          · have h2 : (v.drop ((v.takeWhile isWordC).length)).length ≤ v.length := by
              rw [List.length_drop]; omega
            rw [hr] at h2
            simp only [List.length_cons] at h1 h2 ⊢
            omega
          · exact le_refl _
        · exact le_refl _
    · exact le_refl _
  · exact le_refl _

theorem lastParenSplit_eq {l a b : List Char}
    (h : lastParenSplit l = some (a, b)) : l = a ++ ')' :: b := by
  induction l generalizing a b with
  | nil => simp [lastParenSplit] at h
  | cons c r ih =>
    cases hr : lastParenSplit r with
    | some ab =>
      obtain ⟨a', b'⟩ := ab
      simp only [lastParenSplit, hr, Option.some.injEq, Prod.mk.injEq] at h
      obtain ⟨ha, hb⟩ := h
      subst ha; subst hb
      have := ih hr
      simp [this]
    | none =>
      simp only [lastParenSplit, hr, Option.some.injEq, Prod.mk.injEq] at h
      split at h
      · next hc =>
        simp only [Option.some.injEq, Prod.mk.injEq] at h
        obtain ⟨ha, hb⟩ := h
        subst ha; subst hb; subst hc
        rfl
      · simp at h

theorem actionCore_rest_lt {s : List Char} {m : ActionMatch} {r : List Char}
    (h : actionCore s = some (m, r)) : r.length < s.length := by
  simp only [actionCore] at h
  split at h
  · simp at h
  · next hds =>
    split at h
    · next c1 c2 s3 heq =>
      split at h
      · split at h
        · simp at h
        · next hw =>
          split at h
          · next c3 s5 heq5 =>
            split at h
            · split at h
              · next args afterP hsplit =>
                simp only [Option.some.injEq, Prod.mk.injEq] at h
                obtain ⟨-, hr⟩ := h
                have l1 : (s.dropWhile isWS).length ≤ s.length := length_dropWhile_le isWS s
                have l2 : (c1 :: c2 :: s3).length ≤ (s.dropWhile isWS).length := by
                  rw [← heq]; simp [List.length_drop]
                have l3 : (c3 :: s5).length ≤ s3.length := by
                  rw [← heq5]; simp [List.length_drop]
                have l4 : (s5.takeWhile (fun c => c ≠ '\n')) = args ++ ')' :: afterP :=
                  lastParenSplit_eq hsplit
                have l6 : (commentSkip (afterP ++ s5.drop ((s5.takeWhile (fun c => c ≠ '\n')).length))).length ≤
                    (afterP ++ s5.drop ((s5.takeWhile (fun c => c ≠ '\n')).length)).length :=
                  commentSkip_length_le _
                rw [hr] at l6
                have l7 : s5.length = (s5.takeWhile (fun c => c ≠ '\n')).length +
                    (s5.drop ((s5.takeWhile (fun c => c ≠ '\n')).length)).length := by
                  rw [List.length_drop]
                  have := length_takeWhile_le (fun c => c ≠ '\n') s5
                  omega
                have l8 : (s5.takeWhile (fun c => c ≠ '\n')).length = args.length + 1 + afterP.length := by
                  rw [l4]; simp [List.length_append]; omega
                simp only [List.length_append, List.length_cons] at l2 l3 l6 ⊢
                omega
              · simp at h
            · simp at h
          · simp at h
      · simp at h
    · simp at h

theorem tryMatch_rest_lt {s : List Char} {g : PlanMatch} {r : List Char}
    (h : tryMatch s = some (g, r)) : r.length < s.length := by
  cases hmt : matchThought s with
  | none =>
    simp only [tryMatch, hmt] at h
    cases hac : actionCore s with
    | none => rw [hac] at h; simp at h
    | some mr =>
      obtain ⟨m1, r1⟩ := mr
      rw [hac] at h
      simp only [Option.map_some', Option.some.injEq, Prod.mk.injEq] at h
      obtain ⟨-, hr⟩ := h
      subst hr
      exact actionCore_rest_lt hac
  | some t =>
    simp only [tryMatch, hmt] at h
    split at h
    · next val hval =>
      simp only [Option.some.injEq] at h
      subst h
      split at hval
      · next c r2 hr2 =>
        split at hval
        · next hc =>
          cases hac : actionCore r2 with
          | none => rw [hac] at hval; simp at hval
          | some mr =>
            obtain ⟨m1, r1⟩ := mr
            rw [hac] at hval
            simp only [Option.map_some', Option.some.injEq, Prod.mk.injEq] at hval
            obtain ⟨-, hr⟩ := hval
            subst hr
            have h1 : r1.length < r2.length := actionCore_rest_lt hac
            have h2 : (c :: r2).length ≤ (s.drop (thoughtLit.length + t.length)).length := by
              rw [hr2]
            rw [List.length_drop] at h2
            simp only [List.length_cons] at h2
            omega
        · simp at hval
      · simp at hval
    · next hnone =>
      cases hac : actionCore s with
      | none => rw [hac] at h; simp at h
      | some mr =>
        obtain ⟨m1, r1⟩ := mr
        rw [hac] at h
        simp only [Option.map_some', Option.some.injEq, Prod.mk.injEq] at h
        obtain ⟨-, hr⟩ := h
        subst hr
        exact actionCore_rest_lt hac

end TinyAgentSpec

namespace TinyAgentSpec

/-- Claim C4: for every raw argument string, the argument parser returns a
tuple or list: the empty string yields the empty tuple; when the literal
evaluation of the whole string fails the raw string is wrapped as a
one-element tuple; a successful evaluation to a list or tuple is returned
as is; and any other successful evaluation result is wrapped as a
one-element tuple. -/
theorem parse_action_args_cases (litEval : List Char → Option PyValue) :
    (parse_llm_compiler_action_args litEval [] = .vtuple []) ∧
    (∀ a : List Char, a ≠ [] → litEval a = none →
      parse_llm_compiler_action_args litEval a = .vtuple [.vstr a]) ∧
    (∀ (a : List Char) (xs : List PyValue), a ≠ [] → litEval a = some (.vlist xs) →
      parse_llm_compiler_action_args litEval a = .vlist xs) ∧
    (∀ (a : List Char) (xs : List PyValue), a ≠ [] → litEval a = some (.vtuple xs) →
      parse_llm_compiler_action_args litEval a = .vtuple xs) ∧
    (∀ (a : List Char) (v : PyValue), a ≠ [] → litEval a = some v →
      pyIsListOrTuple v = false →
      parse_llm_compiler_action_args litEval a = .vtuple [v]) := by
  refine ⟨rfl, ?_, ?_, ?_, ?_⟩ <;>
    intro a
  · intro ha hev
    simp [parse_llm_compiler_action_args, ha, hev, pyIsListOrTuple]
  · intro xs ha hev
    simp [parse_llm_compiler_action_args, ha, hev, pyIsListOrTuple]
  · intro xs ha hev
    simp [parse_llm_compiler_action_args, ha, hev, pyIsListOrTuple]
  · intro v ha hev hv
    simp [parse_llm_compiler_action_args, ha, hev, hv]

/-- Witness for `parse_action_args_cases` at a concrete evaluator and
concrete argument strings. -/
theorem parse_action_args_cases_witness :
    (parse_llm_compiler_action_args (fun _ => none) [] = .vtuple []) ∧
    (('x' :: []) ≠ [] ∧
      parse_llm_compiler_action_args (fun _ => none) ['x'] = .vtuple [.vstr ['x']]) ∧
    (('3' :: []) ≠ [] ∧
      parse_llm_compiler_action_args (fun _ => some (.vint 3)) ['3'] = .vtuple [.vint 3]) := by
  refine ⟨(parse_action_args_cases (fun _ => none)).1, ⟨by decide, ?_⟩, ⟨by decide, ?_⟩⟩
  · exact (parse_action_args_cases (fun _ => none)).2.1 ['x'] (by decide) rfl
  · exact (parse_action_args_cases (fun _ => some (.vint 3))).2.2.2.2 ['3'] (.vint 3)
      (by decide) rfl (by decide)

end TinyAgentSpec

namespace TinyAgentSpec

/-! ## Claim C5: batch parsing stops at the first `join` -/

/-- The prefix of a match list up to and including its first `join` match. -/
def keepUntilJoin : List PlanMatch → List PlanMatch
  | [] => []
  | m :: ms => if m.name = joinName then [m] else m :: keepUntilJoin ms

theorem keepUntilJoin_sublist (ms : List PlanMatch) :
    (keepUntilJoin ms).Sublist ms := by
  induction ms with
  | nil => simp [keepUntilJoin]
  | cons m ms ih =>
    by_cases h : m.name = joinName
    · simp [keepUntilJoin, h]
    · simpa [keepUntilJoin, h] using ih.cons₂ m

theorem mkBatchTask_is_join (litEval : List Char → Option PyValue) (m : PlanMatch) :
    (mkBatchTask litEval m).is_join = true ↔ m.name = joinName := by
  simp [mkBatchTask]

theorem parse_plan_aux_keepUntilJoin (litEval : List Char → Option PyValue) :
    ∀ ms g, parse_plan_aux litEval ms g = parse_plan_aux litEval (keepUntilJoin ms) g := by
  intro ms
  induction ms with
  | nil => intro g; rfl
  | cons m ms ih =>
    intro g
    by_cases h : m.name = joinName
    · simp [parse_plan_aux, keepUntilJoin, h, mkBatchTask]
    · simp [parse_plan_aux, keepUntilJoin, h, mkBatchTask, ih]

/-- All values in the association list are non-join tasks. -/
def allNonJoin (g : List (Nat × Task)) : Prop :=
  ∀ p ∈ g, p.2.is_join = false

theorem allNonJoin_insert {g : List (Nat × Task)} {k : Nat} {t : Task}
    (hg : allNonJoin g) (ht : t.is_join = false) :
    allNonJoin (insertTask g k t) := by
  induction g with
  | nil => intro p hp; simp [insertTask] at hp; simp [hp, ht]
  | cons q g ih =>
    intro p hp
    simp only [insertTask] at hp
    split at hp
    · rcases List.mem_cons.mp hp with h | h
      · simp [h, ht]
      · exact hg p (List.mem_cons_of_mem _ h)
    · rcases List.mem_cons.mp hp with h | h
      · exact hg p (h ▸ List.mem_cons_self q g)
      · exact ih (fun p hp => hg p (List.mem_cons_of_mem _ hp)) p h

theorem countP_join_eq_zero {g : List (Nat × Task)} (hg : allNonJoin g) :
    g.countP (fun p => p.2.is_join) = 0 := by
  induction g with
  | nil => rfl
  | cons q g ih =>
    have hq : q.2.is_join = false := hg q (List.mem_cons_self q g)
    rw [List.countP_cons]
    simp only [hq]
    exact ih (fun p hp => hg p (List.mem_cons_of_mem _ hp))

theorem countP_insert_join {g : List (Nat × Task)} {k : Nat} {t : Task}
    (hg : allNonJoin g) (ht : t.is_join = true) :
    (insertTask g k t).countP (fun p => p.2.is_join) = 1 := by
  induction g with
  | nil => simp [insertTask, List.countP_cons, ht]
  | cons q g ih =>
    have hq : q.2.is_join = false := hg q (List.mem_cons_self q g)
    have hg' : allNonJoin g := fun p hp => hg p (List.mem_cons_of_mem _ hp)
    simp only [insertTask]
    split
    · simp [List.countP_cons, ht, countP_join_eq_zero hg']
    · rw [List.countP_cons]
      simp [hq, ih hg']

theorem parse_plan_aux_join_count (litEval : List Char → Option PyValue) :
    ∀ ms g, allNonJoin g → (∃ m ∈ ms, m.name = joinName) →
      (parse_plan_aux litEval ms g).countP (fun p => p.2.is_join) = 1 := by
  intro ms
  induction ms with
  | nil => intro g _ h; simp at h
  | cons m ms ih =>
    intro g hg hex
    by_cases h : m.name = joinName
    · have ht : (mkBatchTask litEval m).is_join = true := by
        rw [mkBatchTask_is_join]; exact h
      simp only [parse_plan_aux, ht, if_pos rfl]
      exact countP_insert_join hg ht
    · have ht : (mkBatchTask litEval m).is_join = false := by
        simp [mkBatchTask, h]
      simp only [parse_plan_aux, ht]
      have hex' : ∃ m' ∈ ms, m'.name = joinName := by
        rcases hex with ⟨m', hm', hname⟩
        rcases List.mem_cons.mp hm' with rfl | hmem
        · exact absurd hname h
        · exact ⟨m', hmem, hname⟩
      simp only [Bool.false_eq_true, if_false]
      exact ih _ (allNonJoin_insert hg ht) hex'

theorem insertTask_fresh {g : List (Nat × Task)} {k : Nat} {t : Task}
    (h : ∀ p ∈ g, p.1 ≠ k) : insertTask g k t = g ++ [(k, t)] := by
  induction g with
  | nil => rfl
  | cons q g ih =>
    have hq : q.1 ≠ k := h q (List.mem_cons_self q g)
    simp only [insertTask, if_neg hq]
    rw [ih (fun p hp => h p (List.mem_cons_of_mem _ hp))]
    rfl

theorem parse_plan_aux_as_map (litEval : List Char → Option PyValue) :
    ∀ ms g, ((ms.map PlanMatch.idx).Pairwise (· < ·)) →
      (∀ p ∈ g, ∀ m ∈ ms, p.1 < m.idx) →
      parse_plan_aux litEval ms g =
        g ++ (keepUntilJoin ms).map (fun m => (m.idx, mkBatchTask litEval m)) := by
  intro ms
  induction ms with
  | nil => intro g _ _; simp [parse_plan_aux, keepUntilJoin]
  | cons m ms ih =>
    intro g hpw hlt
    have hfresh : ∀ p ∈ g, p.1 ≠ m.idx := fun p hp =>
      Nat.ne_of_lt (hlt p hp m (List.mem_cons_self m ms))
    have hins : insertTask g m.idx (mkBatchTask litEval m) =
        g ++ [(m.idx, mkBatchTask litEval m)] := insertTask_fresh hfresh
    by_cases h : m.name = joinName
    · have ht : (mkBatchTask litEval m).is_join = true := by
        rw [mkBatchTask_is_join]; exact h
      simp [parse_plan_aux, ht, hins, keepUntilJoin, h]
    · have ht : (mkBatchTask litEval m).is_join = false := by
        simp [mkBatchTask, h]
      simp only [parse_plan_aux, ht, Bool.false_eq_true, if_false, hins]
      rw [List.map_cons] at hpw
      have hpw' := List.Pairwise.of_cons hpw
      have hm_lt : ∀ m' ∈ ms, m.idx < m'.idx := by
        intro m' hm'
        exact (List.pairwise_cons.mp hpw).1 _ (List.mem_map_of_mem PlanMatch.idx hm')
      have hlt' : ∀ p ∈ g ++ [(m.idx, mkBatchTask litEval m)], ∀ m' ∈ ms, p.1 < m'.idx := by
        intro p hp m' hm'
        rcases List.mem_append.mp hp with hpg | hpm
        · exact Nat.lt_trans (hlt p hpg m (List.mem_cons_self m ms)) (hm_lt m' hm')
        · simp only [List.mem_singleton] at hpm
          rw [hpm]
          exact hm_lt m' hm'
      rw [ih _ hpw' hlt']
      simp [keepUntilJoin, h]

theorem keepUntilJoin_join_le (ms : List PlanMatch)
    (hpw : (ms.map PlanMatch.idx).Pairwise (· < ·)) :
    ∀ m' ∈ keepUntilJoin ms, m'.name = joinName →
      ∀ m'' ∈ keepUntilJoin ms, m''.idx ≤ m'.idx := by
  induction ms with
  | nil => intro m' hm'; simp [keepUntilJoin] at hm'
  | cons m ms ih =>
    intro m' hm' hname m'' hm''
    by_cases h : m.name = joinName
    · simp only [keepUntilJoin, if_pos h] at hm' hm''
      simp at hm' hm''
      rw [hm', hm'']
    · simp only [keepUntilJoin, if_neg h] at hm' hm''
      rw [List.map_cons] at hpw
      have hm_lt : ∀ q ∈ ms, m.idx < q.idx := by
        intro q hq
        exact (List.pairwise_cons.mp hpw).1 _ (List.mem_map_of_mem PlanMatch.idx hq)
      rcases List.mem_cons.mp hm' with rfl | hm'mem
      · exact absurd hname h
      · have hm'ms : m' ∈ ms := (keepUntilJoin_sublist ms).mem hm'mem
        rcases List.mem_cons.mp hm'' with rfl | hm''mem
        · exact Nat.le_of_lt (hm_lt m' hm'ms)
        · exact ih (List.Pairwise.of_cons hpw) m' hm'mem hname m'' hm''mem

end TinyAgentSpec

namespace TinyAgentSpec

/-- Claim C5, counterexample: on the plan text `"5. search(x)\n1. join()\n"`
the batch parser returns a plan whose unique join task has idx 1 while a
non-join task has idx 5, so the join task does **not** have the maximum idx
of the returned plan. -/
theorem parse_plan_join_not_max :
    ∃ p ∈ parse_plan (fun _ => none) ("5. search(x)\n1. join()\n".toList),
      p.2.is_join = true ∧
      ∃ q ∈ parse_plan (fun _ => none) ("5. search(x)\n1. join()\n".toList),
        p.2.idx < q.2.idx := by
  decide

/-- Claim C5 (amended): for every plan text, batch parsing processes the
regex matches in order only up to and including the first `join` match —
matches after it are ignored; when the text contains a `join` action the
returned plan has exactly one task with `is_join = true`; and when the
matched action indices are strictly increasing that join task has the
maximum idx of the returned plan. -/
theorem parse_plan_first_join (litEval : List Char → Option PyValue) (s : List Char) :
    parse_plan litEval s = parse_plan_aux litEval (keepUntilJoin (findAllPlan s)) [] ∧
    ((∃ m ∈ findAllPlan s, m.name = joinName) →
      (parse_plan litEval s).countP (fun p => p.2.is_join) = 1) ∧
    (((findAllPlan s).map PlanMatch.idx).Pairwise (· < ·) →
      ∀ p ∈ parse_plan litEval s, p.2.is_join = true →
        ∀ q ∈ parse_plan litEval s, q.2.idx ≤ p.2.idx) := by
  refine ⟨parse_plan_aux_keepUntilJoin litEval _ [], ?_, ?_⟩
  · intro hex
    exact parse_plan_aux_join_count litEval _ [] (by intro p hp; simp at hp) hex
  · intro hpw p hp hpj q hq
    have hmap := parse_plan_aux_as_map litEval (findAllPlan s) []
      hpw (by intro p hp; simp at hp)
    rw [parse_plan, hmap] at hp hq
    simp only [List.nil_append, List.mem_map] at hp hq
    obtain ⟨m', hm', hpm⟩ := hp
    obtain ⟨m'', hm'', hqm⟩ := hq
    subst hpm
    subst hqm
    have hname : m'.name = joinName :=
      (mkBatchTask_is_join litEval m').mp (by simpa using hpj)
    have := keepUntilJoin_join_le (findAllPlan s) hpw m' hm' hname m'' hm''
    simpa using this

/-- Witness for `parse_plan_first_join` at the plan text
`"1. a(x)\n2. join()\n"`. -/
theorem parse_plan_first_join_witness :
    ((∃ m ∈ findAllPlan ("1. a(x)\n2. join()\n".toList), m.name = joinName) ∧
      (parse_plan (fun _ => none) ("1. a(x)\n2. join()\n".toList)).countP
        (fun p => p.2.is_join) = 1) ∧
    ((((findAllPlan ("1. a(x)\n2. join()\n".toList)).map PlanMatch.idx).Pairwise (· < ·)) ∧
      ∀ p ∈ parse_plan (fun _ => none) ("1. a(x)\n2. join()\n".toList), p.2.is_join = true →
        ∀ q ∈ parse_plan (fun _ => none) ("1. a(x)\n2. join()\n".toList), q.2.idx ≤ p.2.idx) := by
  refine ⟨⟨by decide, ?_⟩, by decide, ?_⟩
  · exact (parse_plan_first_join (fun _ => none) _).2.1 (by decide)
  · exact (parse_plan_first_join (fun _ => none) _).2.2 (by decide)

end TinyAgentSpec

namespace TinyAgentSpec

/-! ## Python string helpers for the joinner parser

`get_parsed_joinner_output` (src/utils/plan_utils.py, lines 82–100) uses
`str.split`, `str.find`, `str.rfind`, `str.startswith` and slicing. -/

/-- Python `str.split("\n")`. -/
def pySplitNL : List Char → List (List Char)
  | [] => [[]]
  | '\n' :: r => [] :: pySplitNL r
  | c :: r =>
    match pySplitNL r with
    | h :: t => (c :: h) :: t
    | [] => [[c]]

/-- First index at which `sub` occurs in `s` (starting the count at `i`). -/
def findSubAux (sub : List Char) : Nat → List Char → Option Nat
  | i, s =>
    if sub.isPrefixOf s then some i
    else
      match s with
      | [] => none
      | _ :: t => findSubAux sub (i + 1) t

/-- Python `s.find(sub)`: first index of an occurrence, `-1` if none. -/
def pyFind (s sub : List Char) : Int :=
  match findSubAux sub 0 s with
  | some i => (i : Int)
  | none => -1

/-- Python `s.rfind(c)` for a single character: last index, `-1` if none. -/
def pyRFindChar (s : List Char) (c : Char) : Int :=
  match findSubAux [c] 0 s.reverse with
  | some i => (s.length : Int) - 1 - (i : Int)
  | none => -1

/-- Python `sub in s`. -/
def containsSub (s sub : List Char) : Bool :=
  (findSubAux sub 0 s).isSome

/-- Normalize a Python slice index against a length: negative indices count
from the end, and the result is clamped to `[0, len]`. -/
def pySliceIdx (len : Nat) (i : Int) : Nat :=
  if i < 0 then (max 0 ((len : Int) + i)).toNat else min i.toNat len

/-- Python `s[i:j]`. -/
def pySlice (s : List Char) (i j : Int) : List Char :=
  (s.take (pySliceIdx s.length j)).drop (pySliceIdx s.length i)

/-- Python `s.split(sub)` for a nonempty separator, with fuel; every split
step consumes at least `sub.length ≥ 1` characters, so `s.length + 1` steps
suffice. -/
def splitOnSubAux (sub : List Char) : Nat → List Char → List (List Char)
  | 0, s => [s]
  | fuel + 1, s =>
    match findSubAux sub 0 s with
    | none => [s]
    | some i => s.take i :: splitOnSubAux sub fuel (s.drop (i + sub.length))

/-- Python `s.split(sub)` (the source only calls it with `"Thought:"`). -/
def splitOnSub (s sub : List Char) : List (List Char) :=
  splitOnSubAux sub (s.length + 1) s

/-! ## The joinner output parser -/

/-- Modelled from the spec: `JOINNER_FINISH` is defined in
`src/llm_compiler/constants.py`, which is not part of the corpus; §4.4 of
the spec names the finishing decision `Finish`. -/
def JOINNER_FINISH : List Char := "Finish".toList

/-- Modelled from the spec: `JOINNER_REPLAN` is defined in
`src/llm_compiler/constants.py`, which is not part of the corpus; §4.4 of
the spec names the replanning decision `Replan`. -/
def JOINNER_REPLAN : List Char := "Replan".toList

/-- The literal `Action:`. -/
def actionColon : List Char := "Action:".toList

/-- The literal `Thought:`. -/
def thoughtColon : List Char := "Thought:".toList

/-- A `JoinStep` (src/utils/data_utils.py): the joinner's parsed decision. -/
structure JoinStep where
  thought : List Char
  action : List Char
  message : List Char

/-- The body of the `for ans in raw_answers` loop of
`get_parsed_joinner_output`, acting on the accumulator
`(thought, answer, is_replan)`. -/
def joinner_line_step (acc : List Char × List Char × Bool) (ans0 : List Char) :
    List Char × List Char × Bool :=
  let i := pyFind ans0 actionColon
  let ans := if 0 ≤ i then pySlice ans0 i (ans0.length : Int) else ans0
  if actionColon.isPrefixOf ans then
    (acc.1, pySlice ans (pyFind ans ['('] + 1) (pyRFindChar ans ')'),
      containsSub ans JOINNER_REPLAN)
  else if thoughtColon.isPrefixOf ans then
    (pyStrip ((splitOnSub ans thoughtColon).getD 1 []), acc.2.1, acc.2.2)
  else acc

/-- `get_parsed_joinner_output` (src/utils/plan_utils.py, lines 82–100). -/
def get_parsed_joinner_output (raw : List Char) : JoinStep :=
  { thought := ((pySplitNL raw).foldl joinner_line_step ([], [], false)).1
    action :=
      if ((pySplitNL raw).foldl joinner_line_step ([], [], false)).2.2 then JOINNER_REPLAN
      else JOINNER_FINISH
    message := ((pySplitNL raw).foldl joinner_line_step ([], [], false)).2.1 }

theorem joinner_output_action (raw : List Char) :
    (get_parsed_joinner_output raw).action =
      (if ((pySplitNL raw).foldl joinner_line_step ([], [], false)).2.2 = true
       then JOINNER_REPLAN else JOINNER_FINISH) := rfl

theorem joinner_output_message (raw : List Char) :
    (get_parsed_joinner_output raw).message =
      ((pySplitNL raw).foldl joinner_line_step ([], [], false)).2.1 := rfl

end TinyAgentSpec

namespace TinyAgentSpec

/-! ## Facts about the joinner's string scanning -/

theorem findSubAux_spec (sub : List Char) :
    ∀ (s : List Char) (n i : Nat), findSubAux sub n s = some i →
      ∃ k, i = n + k ∧ k ≤ s.length ∧ sub <+: s.drop k := by
  intro s
  induction s with
  | nil =>
    intro n i h
    simp only [findSubAux] at h
    split at h
    · next hp =>
      exact ⟨0, by simpa using h.symm, by simp,
        by simpa using List.isPrefixOf_iff_prefix.mp hp⟩
    · simp at h
  | cons c t ih =>
    intro n i h
    simp only [findSubAux] at h
    split at h
    · next hp =>
      exact ⟨0, by simpa using h.symm, by simp,
        by simpa using List.isPrefixOf_iff_prefix.mp hp⟩
    · obtain ⟨k, hk, hkl, hkp⟩ := ih (n + 1) i h
      exact ⟨k + 1, by omega, by simp; omega, by simpa using hkp⟩

theorem findSubAux_none (sub : List Char) :
    ∀ (s : List Char) (n : Nat), findSubAux sub n s = none →
      ¬ sub <+: s := by
  intro s n h
  cases s with
  | nil =>
    simp only [findSubAux] at h
    split at h
    · simp at h
    · next hp => exact fun hc => hp (List.isPrefixOf_iff_prefix.mpr hc)
  | cons c t =>
    simp only [findSubAux] at h
    split at h
    · simp at h
    · next hp => exact fun hc => hp (List.isPrefixOf_iff_prefix.mpr hc)

theorem containsSub_of_leading {s sub : List Char}
    (h : sub <+: s) : containsSub s sub = true := by
  unfold containsSub findSubAux
  rw [if_pos (List.isPrefixOf_iff_prefix.mpr h)]
  rfl

theorem not_prefix_of_not_containsSub {s sub : List Char}
    (h : containsSub s sub = false) : ¬ sub <+: s := by
  intro hc
  rw [containsSub_of_leading hc] at h
  exact absurd h (by simp)

theorem pyFind_neg_of_not_containsSub {s sub : List Char}
    (h : containsSub s sub = false) : pyFind s sub = -1 := by
  unfold containsSub at h
  unfold pyFind
  cases hf : findSubAux sub 0 s with
  | some i => rw [hf] at h; simp at h
  | none => rfl

/-- A line without an `Action:` occurrence leaves the `(answer, is_replan)`
part of the accumulator unchanged. -/
theorem joinner_line_step_no_action {acc : List Char × List Char × Bool}
    {ans0 : List Char} (h : containsSub ans0 actionColon = false) :
    (joinner_line_step acc ans0).2 = acc.2 := by
  have hf : pyFind ans0 actionColon = -1 := pyFind_neg_of_not_containsSub h
  have hnp : ¬ actionColon <+: ans0 := not_prefix_of_not_containsSub h
  simp only [joinner_line_step, hf]
  norm_num
  rw [if_neg hnp]
  split <;> rfl

theorem foldl_no_action :
    ∀ (lines : List (List Char)) (acc : List Char × List Char × Bool),
      (∀ M ∈ lines, containsSub M actionColon = false) →
      (lines.foldl joinner_line_step acc).2 = acc.2 := by
  intro lines
  induction lines with
  | nil => intro acc _; rfl
  | cons L ls ih =>
    intro acc hall
    rw [List.foldl_cons]
    rw [ih _ (fun M hM => hall M (List.mem_cons_of_mem _ hM))]
    exact joinner_line_step_no_action (hall L (List.mem_cons_self L ls))

theorem pySlice_drop {s : List Char} {i : Int} (h0 : 0 ≤ i)
    (hl : i.toNat ≤ s.length) :
    pySlice s i (s.length : Int) = s.drop i.toNat := by
  unfold pySlice pySliceIdx
  rw [if_neg (by omega), if_neg (by omega)]
  have h1 : (s.length : Int).toNat = s.length := by omega
  rw [h1, Nat.min_self, List.take_length]
  congr 1
  omega

/-- A line containing `Action:` sets `(answer, is_replan)` from the slice of
the line starting at the first occurrence. -/
theorem joinner_line_step_action {acc : List Char × List Char × Bool}
    {ans0 : List Char} (h : containsSub ans0 actionColon = true) :
    joinner_line_step acc ans0 =
      (acc.1,
        pySlice (pySlice ans0 (pyFind ans0 actionColon) (ans0.length : Int))
          (pyFind (pySlice ans0 (pyFind ans0 actionColon) (ans0.length : Int)) ['('] + 1)
          (pyRFindChar (pySlice ans0 (pyFind ans0 actionColon) (ans0.length : Int)) ')'),
        containsSub (pySlice ans0 (pyFind ans0 actionColon) (ans0.length : Int))
          JOINNER_REPLAN) := by
  unfold containsSub at h
  rw [Option.isSome_iff_exists] at h
  obtain ⟨i, hi⟩ := h
  obtain ⟨k, hk, hkl, hkp⟩ := findSubAux_spec actionColon ans0 0 i hi
  have hfind : pyFind ans0 actionColon = (i : Int) := by
    unfold pyFind; rw [hi]
  have hslice : pySlice ans0 (i : Int) (ans0.length : Int) = ans0.drop i := by
    rw [pySlice_drop (by omega) (by simp; omega)]
    simp
  have hpre : actionColon.isPrefixOf (ans0.drop i) = true := by
    rw [hk]
    simpa using List.isPrefixOf_iff_prefix.mpr hkp
  simp only [joinner_line_step, hfind]
  rw [if_pos (show (0 : Int) ≤ (i : Int) by omega)]
  rw [hslice]
  rw [if_pos hpre]

end TinyAgentSpec

namespace TinyAgentSpec

/-! ## Character positions for the joinner slices -/

theorem findSubAux_char_append {c : Char} {A : List Char} (hA : c ∉ A) :
    ∀ (D : List Char) (n : Nat), findSubAux [c] n (A ++ c :: D) = some (n + A.length) := by
  induction A with
  | nil =>
    intro D n
    simp only [findSubAux, List.nil_append]
    rw [if_pos (by simp [List.isPrefixOf_iff_prefix])]
    simp
  | cons a A' ih =>
    intro D n
    have ha : a ≠ c := fun h => hA (h ▸ List.mem_cons_self a A')
    simp only [findSubAux, List.cons_append]
    rw [if_neg (by
      simp only [List.isPrefixOf_iff_prefix]
      intro hp
      obtain ⟨t, ht⟩ := hp
      simp only [List.singleton_append, List.cons.injEq] at ht
      exact ha ht.1.symm)]
    rw [List.append_eq]
    rw [ih (fun h => hA (List.mem_cons_of_mem _ h)) D (n + 1)]
    congr 1
    simp
    omega

theorem findSubAux_char_none {c : Char} :
    ∀ {s : List Char}, c ∉ s → ∀ n, findSubAux [c] n s = none := by
  intro s
  induction s with
  | nil =>
    intro _ n
    simp only [findSubAux]
    rw [if_neg (by simp [List.isPrefixOf_iff_prefix])]
  | cons a t ih =>
    intro hmem n
    have ha : a ≠ c := fun h => hmem (h ▸ List.mem_cons_self a t)
    simp only [findSubAux]
    rw [if_neg (by
      simp only [List.isPrefixOf_iff_prefix]
      intro hp
      obtain ⟨u, hu⟩ := hp
      simp only [List.singleton_append, List.cons.injEq] at hu
      exact ha hu.1.symm)]
    exact ih (fun h => hmem (List.mem_cons_of_mem _ h)) (n + 1)

theorem pyFind_char_append {c : Char} {A D : List Char} (hA : c ∉ A) :
    pyFind (A ++ c :: D) [c] = (A.length : Int) := by
  unfold pyFind
  rw [findSubAux_char_append hA D 0]
  simp

theorem pyFind_char_neg {c : Char} {s : List Char} (h : c ∉ s) :
    pyFind s [c] = -1 := by
  unfold pyFind
  rw [findSubAux_char_none h 0]

theorem pyRFindChar_append {E C : List Char} (hC : ')' ∉ C) :
    pyRFindChar (E ++ ')' :: C) ')' = (E.length : Int) := by
  unfold pyRFindChar
  have hrev : (E ++ ')' :: C).reverse = C.reverse ++ ')' :: E.reverse := by
    simp
  rw [hrev]
  rw [findSubAux_char_append (by simpa using hC) E.reverse 0]
  simp
  omega

theorem pyRFindChar_neg {c : Char} {s : List Char} (h : c ∉ s) :
    pyRFindChar s c = -1 := by
  unfold pyRFindChar
  rw [findSubAux_char_none (by simpa using h) 0]

theorem pySliceIdx_nonneg {len : Nat} {i : Int} (h : 0 ≤ i) :
    pySliceIdx len i = min i.toNat len := by
  unfold pySliceIdx
  rw [if_neg (by omega)]

theorem pySliceIdx_neg {len : Nat} {i : Int} (h : i < 0) :
    pySliceIdx len i = (max 0 ((len : Int) + i)).toNat := by
  unfold pySliceIdx
  rw [if_pos h]

theorem pySlice_between (A B C : List Char) :
    pySlice (A ++ '(' :: B ++ ')' :: C) ((A.length : Int) + 1)
      ((A.length : Int) + 1 + (B.length : Int)) = B := by
  unfold pySlice
  rw [pySliceIdx_nonneg (show (0 : Int) ≤ (A.length : Int) + 1 + (B.length : Int) by omega)]
  rw [pySliceIdx_nonneg (show (0 : Int) ≤ (A.length : Int) + 1 by omega)]
  have hj : ((A.length : Int) + 1 + (B.length : Int)).toNat = A.length + 1 + B.length := by
    omega
  have hi : ((A.length : Int) + 1).toNat = A.length + 1 := by omega
  rw [hj, hi]
  have hlen : (A ++ '(' :: B ++ ')' :: C).length =
      A.length + 1 + B.length + 1 + C.length := by
    simp
    omega
  rw [Nat.min_eq_left (by rw [hlen]; omega), Nat.min_eq_left (by rw [hlen]; omega)]
  have htake : (A ++ '(' :: B ++ ')' :: C).take (A.length + 1 + B.length) =
      A ++ '(' :: B := by
    have h1 : A ++ '(' :: B ++ ')' :: C = (A ++ '(' :: B) ++ ')' :: C := by simp
    have h2 : A.length + 1 + B.length = (A ++ '(' :: B).length := by simp; omega
    rw [h1, h2, List.take_left]
  rw [htake]
  have h3 : A ++ '(' :: B = (A ++ ['(']) ++ B := by simp
  have h4 : A.length + 1 = (A ++ ['(']).length := by simp
  rw [h3, h4, List.drop_left]

theorem pySlice_zero_negone (s : List Char) :
    pySlice s 0 (-1) = s.dropLast := by
  unfold pySlice
  rw [pySliceIdx_neg (show (-1 : Int) < 0 by omega)]
  rw [pySliceIdx_nonneg (show (0 : Int) ≤ 0 by omega)]
  have h0 : ((0 : Int).toNat) = 0 := rfl
  rw [h0, Nat.min_eq_left (Nat.zero_le _), List.drop_zero]
  have h1 : (max 0 ((s.length : Int) + -1)).toNat = s.length - 1 := by omega
  rw [h1, ← List.dropLast_eq_take]

end TinyAgentSpec

namespace TinyAgentSpec

/-- Claim C6: the joinner decision is taken from the (last) line containing
`Action:`: with `S` the slice of that line from the first `Action:`, when `S`
decomposes as `A ++ '(' :: B ++ ')' :: C` (first `(`, last `)`), the returned
message is `B` and the decision is `Replan` exactly when `S` contains
`Replan` (so `Finish` for an `Action: Finish(...)` line); a malformed
response with no `Action:` line yields the `Finish` decision with an empty
message. -/
theorem joinner_output_spec (raw : List Char) :
    ((∀ line ∈ pySplitNL raw, containsSub line actionColon = false) →
      (get_parsed_joinner_output raw).action = JOINNER_FINISH ∧
      (get_parsed_joinner_output raw).message = []) ∧
    (∀ (l₁ l₂ : List (List Char)) (L A B C : List Char),
      pySplitNL raw = l₁ ++ L :: l₂ →
      containsSub L actionColon = true →
      (∀ M ∈ l₂, containsSub M actionColon = false) →
      pySlice L (pyFind L actionColon) (L.length : Int) = A ++ '(' :: B ++ ')' :: C →
      '(' ∉ A → ')' ∉ C →
      (get_parsed_joinner_output raw).message = B ∧
      (get_parsed_joinner_output raw).action =
        (if containsSub (A ++ '(' :: B ++ ')' :: C) JOINNER_REPLAN = true
         then JOINNER_REPLAN else JOINNER_FINISH)) := by
  constructor
  · intro hnone
    have h2 := foldl_no_action (pySplitNL raw) ([], [], false) hnone
    constructor
    · rw [joinner_output_action, h2]
      rfl
    · rw [joinner_output_message, h2]
  · intro l₁ l₂ L A B C hsplit hact hafter hS hA hC
    rw [joinner_output_message, joinner_output_action]
    rw [hsplit, List.foldl_append, List.foldl_cons]
    rw [foldl_no_action _ _ hafter]
    rw [joinner_line_step_action hact]
    rw [hS]
    have hfirst : pyFind (A ++ '(' :: B ++ ')' :: C) ['('] = (A.length : Int) := by
      have : A ++ '(' :: B ++ ')' :: C = A ++ '(' :: (B ++ ')' :: C) := by simp
      rw [this, pyFind_char_append hA]
    have hlast : pyRFindChar (A ++ '(' :: B ++ ')' :: C) ')' =
        ((A ++ '(' :: B).length : Int) := by
      have : A ++ '(' :: B ++ ')' :: C = (A ++ '(' :: B) ++ ')' :: C := by simp
      rw [this, pyRFindChar_append hC]
    rw [hfirst, hlast]
    have hlen2 : ((A ++ '(' :: B).length : Int) =
        (A.length : Int) + 1 + (B.length : Int) := by simp; omega
    rw [hlen2]
    rw [pySlice_between]
    exact ⟨rfl, rfl⟩

/-- Witness for `joinner_output_spec`: the well-formed response
`"Thought: done\nAction: Finish(The answer)\n"` yields message
`"The answer"` with decision `Finish`, and the malformed response
`"no action here\n"` yields decision `Finish` with an empty message. -/
theorem joinner_output_spec_witness :
    ((∀ line ∈ pySplitNL ("no action here\n".toList), containsSub line actionColon = false) ∧
      (get_parsed_joinner_output ("no action here\n".toList)).action = JOINNER_FINISH ∧
      (get_parsed_joinner_output ("no action here\n".toList)).message = []) ∧
    ((get_parsed_joinner_output ("Thought: done\nAction: Finish(The answer)\n".toList)).message =
        "The answer".toList ∧
      (get_parsed_joinner_output ("Thought: done\nAction: Finish(The answer)\n".toList)).action =
        JOINNER_FINISH) := by
  constructor
  · exact ⟨by decide, (joinner_output_spec _).1 (by decide)⟩
  · have h := (joinner_output_spec ("Thought: done\nAction: Finish(The answer)\n".toList)).2
      ["Thought: done".toList] ["".toList] ("Action: Finish(The answer)".toList)
      ("Action: Finish".toList) ("The answer".toList) []
      (by decide) (by decide) (by decide) (by decide) (by decide) (by decide)
    refine ⟨h.1, ?_⟩
    rw [h.2]
    decide

/-- Claim C10: when the last `Action:` line, sliced from its first
`Action:` occurrence, contains no parentheses at all, the returned message
is that slice with its final character removed — in particular it is not
the empty string whenever the slice has at least two characters. -/
theorem joinner_no_paren_message (raw : List Char) :
    ∀ (l₁ l₂ : List (List Char)) (L : List Char),
      pySplitNL raw = l₁ ++ L :: l₂ →
      containsSub L actionColon = true →
      (∀ M ∈ l₂, containsSub M actionColon = false) →
      '(' ∉ pySlice L (pyFind L actionColon) (L.length : Int) →
      ')' ∉ pySlice L (pyFind L actionColon) (L.length : Int) →
      (get_parsed_joinner_output raw).message =
        (pySlice L (pyFind L actionColon) (L.length : Int)).dropLast ∧
      (2 ≤ (pySlice L (pyFind L actionColon) (L.length : Int)).length →
        (get_parsed_joinner_output raw).message ≠ []) := by
  intro l₁ l₂ L hsplit hact hafter hparL hparR
  have hmsg : (get_parsed_joinner_output raw).message =
      (pySlice L (pyFind L actionColon) (L.length : Int)).dropLast := by
    rw [joinner_output_message]
    rw [hsplit, List.foldl_append, List.foldl_cons]
    rw [foldl_no_action _ _ hafter]
    rw [joinner_line_step_action hact]
    rw [pyFind_char_neg hparL, pyRFindChar_neg hparR]
    simp only []
    norm_num
    exact pySlice_zero_negone _
  refine ⟨hmsg, ?_⟩
  intro h2
  rw [hmsg]
  intro hempty
  have := congrArg List.length hempty
  rw [List.length_dropLast] at this
  simp at this
  omega

/-- Witness for `joinner_no_paren_message` at the response
`"Action: Replan"`: the message is `"Action: Repla"`. -/
theorem joinner_no_paren_message_witness :
    (get_parsed_joinner_output ("Action: Replan".toList)).message =
        "Action: Repla".toList ∧
    (get_parsed_joinner_output ("Action: Replan".toList)).message ≠ [] := by
  have h := joinner_no_paren_message ("Action: Replan".toList) [] []
    ("Action: Replan".toList) (by decide) (by decide) (by decide) (by decide) (by decide)
  constructor
  · rw [h.1]
    decide
  · exact h.2 (by decide)

end TinyAgentSpec

namespace TinyAgentSpec

/-! ## Claim C7: the LLM-error token and the transport loop -/

/-- `LLM_ERROR_TOKEN` (src/tiny_agent/models.py, line 13). -/
def LLM_ERROR_TOKEN : List Char := "###LLM_ERROR_TOKEN###".toList

/-- The exceptions distinguished by the planner's error callback:
`TinyAgentEarlyStop` (planner.py, line 151) versus any other
`BaseException` (carrying its `str(...)` form). -/
inductive PlannerExc where
  | earlyStop (msg : List Char)
  | other (msg : List Char)
  deriving DecidableEq

/-- `LLMCompilerCallback.on_llm_error` (planner.py, lines 224–236):
a `TinyAgentEarlyStop` is recognized and swallowed; any other error pushes
`f"{LLM_ERROR_TOKEN}LLMError: {error}"` onto the streaming queue.  The
result is the pushed token, if any. -/
def on_llm_error : PlannerExc → Option (List Char)
  | .earlyStop _ => none
  | .other m => some (LLM_ERROR_TOKEN ++ "LLMError: ".toList ++ m)

/-- The action the transport takes on one dequeued item. -/
inductive TransportStep where
  | stop
  | raiseRemainder (msg : List Char)
  | yieldTok (tok : List Char)
  deriving DecidableEq

/-- One step of the `generate` loop of `execute_command`
(run_tiny_agent_server.py, lines 86–100): `None` ends the stream; a token
starting with `LLM_ERROR_TOKEN` raises `token[len(LLM_ERROR_TOKEN):]`
instead of yielding; any other token is yielded. -/
def transport_step : Option (List Char) → TransportStep
  | none => .stop
  | some tok =>
    if LLM_ERROR_TOKEN.isPrefixOf tok then
      .raiseRemainder (tok.drop LLM_ERROR_TOKEN.length)
    else .yieldTok tok

/-- Claim C7: a planner LLM error that is not the controlled early stop
pushes a token prefixed with `###LLM_ERROR_TOKEN###` onto the streaming
channel, and the transport, on dequeuing any token with that prefix, raises
the remainder instead of yielding it. -/
theorem llm_error_token_path (m : List Char) :
    (∃ tok, on_llm_error (.other m) = some tok ∧
      LLM_ERROR_TOKEN <+: tok ∧
      transport_step (some tok) = .raiseRemainder ("LLMError: ".toList ++ m)) ∧
    (∀ tok : List Char, LLM_ERROR_TOKEN <+: tok →
      transport_step (some tok) = .raiseRemainder (tok.drop LLM_ERROR_TOKEN.length)) := by
  constructor
  · refine ⟨LLM_ERROR_TOKEN ++ ("LLMError: ".toList ++ m), rfl,
      List.prefix_append _ _, ?_⟩
    simp only [transport_step]
    rw [if_pos (List.isPrefixOf_iff_prefix.mpr (List.prefix_append _ _))]
    rw [List.drop_left]
  · intro tok hp
    obtain ⟨t, rfl⟩ := hp
    simp only [transport_step]
    rw [if_pos (List.isPrefixOf_iff_prefix.mpr (List.prefix_append _ _))]

/-- Witness for `llm_error_token_path`: the token produced for the error
message `"boom"` is raised by the transport with the prefix stripped. -/
theorem llm_error_token_path_witness :
    (LLM_ERROR_TOKEN <+: (LLM_ERROR_TOKEN ++ "LLMError: boom".toList)) ∧
    transport_step (some (LLM_ERROR_TOKEN ++ "LLMError: boom".toList)) =
      .raiseRemainder ((LLM_ERROR_TOKEN ++ "LLMError: boom".toList).drop
        LLM_ERROR_TOKEN.length) := by
  refine ⟨⟨_, rfl⟩, ?_⟩
  exact (llm_error_token_path []).2 _ ⟨_, rfl⟩

/-! ## Claim C8: the planner's human prompt -/

/-- The `inputs` dict of `Planner.run_llm`, restricted to the two keys the
prompt construction reads; `context = none` models the key being absent. -/
structure PlannerInputs where
  input : List Char
  context : Option (List Char)

/-- Python `AssertionError` (from
`assert "context" in inputs, "If replanning, context must be provided"`). -/
inductive PyAssertionError where
  | contextMissing
  deriving DecidableEq

/-- The human-prompt construction of `Planner.run_llm`
(planner.py, lines 286–292). -/
def run_llm_human_prompt (inputs : PlannerInputs) (is_replan : Bool) :
    Except PyAssertionError (List Char) :=
  if is_replan then
    match inputs.context with
    | some ctx => .ok ("Question: ".toList ++ inputs.input ++ '\n' :: ctx ++ ['\n'])
    | none => .error .contextMissing
  else .ok ("Question: ".toList ++ inputs.input)

/-- Claim C8: the human prompt is exactly `Question: {input}` when not
replanning; when replanning with a supplied context it is exactly
`Question: {input}\n{context}\n`; and replanning with no context fails the
planner's assertion. -/
theorem run_llm_human_prompt_spec (inputs : PlannerInputs) :
    (run_llm_human_prompt inputs false = .ok ("Question: ".toList ++ inputs.input)) ∧
    (∀ ctx, inputs.context = some ctx →
      run_llm_human_prompt inputs true =
        .ok ("Question: ".toList ++ inputs.input ++ '\n' :: ctx ++ ['\n'])) ∧
    (inputs.context = none → run_llm_human_prompt inputs true = .error .contextMissing) := by
  refine ⟨rfl, ?_, ?_⟩
  · intro ctx hctx
    unfold run_llm_human_prompt
    rw [if_pos rfl, hctx]
  · intro hctx
    unfold run_llm_human_prompt
    rw [if_pos rfl, hctx]

/-- Witness for `run_llm_human_prompt_spec` at concrete inputs. -/
theorem run_llm_human_prompt_spec_witness :
    (run_llm_human_prompt ⟨"hi".toList, some "ctx".toList⟩ false =
      .ok ("Question: hi".toList)) ∧
    (run_llm_human_prompt ⟨"hi".toList, some "ctx".toList⟩ true =
      .ok ("Question: hi\nctx\n".toList)) ∧
    (run_llm_human_prompt ⟨"hi".toList, none⟩ true = .error .contextMissing) := by
  refine ⟨?_, ?_, ?_⟩
  · have h := (run_llm_human_prompt_spec ⟨"hi".toList, some "ctx".toList⟩).1
    rw [h]
    congr 1
  · have h := (run_llm_human_prompt_spec ⟨"hi".toList, some "ctx".toList⟩).2.1
      ("ctx".toList) rfl
    rw [h]
    congr 1
  · exact (run_llm_human_prompt_spec ⟨"hi".toList, none⟩).2.2 rfl

end TinyAgentSpec

namespace TinyAgentSpec

/-! ## Claim C9: planner system-prompt generation

`generate_llm_compiler_prompt` (planner.py, lines 37–88) enumerates the
tools with `for i, tool in enumerate(tools)` and afterwards reads the loop
variable `i` to number the join entry (`prefix += f"{i+2}. ..."`).  When
`tools` is empty the loop never binds `i` and the function raises a
`NameError` instead of producing a prompt. -/

/-- The slice of a registered tool the prompt generator reads. -/
structure SpecTool where
  description : List Char
  deriving DecidableEq

/-- Python `NameError` (reading the never-bound loop variable `i`). -/
inductive PyNameError where
  | unboundLoopVar
  deriving DecidableEq

/-- Modelled from the spec: `END_OF_PLAN` is defined in
`src/llm_compiler/constants.py`, which is not part of the corpus; §6 of the
spec gives the literal `<END_OF_PLAN>`. -/
def END_OF_PLAN : List Char := "<END_OF_PLAN>".toList

/-- `JOIN_DESCRIPTION` (planner.py, lines 27–34). -/
def JOIN_DESCRIPTION : List Char :=
  ("join():\n - Collects and combines results from prior actions.\n - A LLM agent is called upon invoking join to either finalize the user query or wait until the plans are executed.\n - join should always be the last action in the plan, and will be called in two scenarios:\n   (a) if the answer can be determined by gathering the outputs from tasks to generate the final response.\n   (b) if the answer cannot be determined in the planning phase before you execute the plans. ").toList

/-- The fixed guidelines block (planner.py, lines 56–70), with the
`END_OF_PLAN` literal spliced in. -/
def plannerGuidelines : List Char :=
  ("Guidelines:\n - Each action described above contains input/output types and description.\n    - You must strictly adhere to the input and output types for each action.\n    - The action descriptions contain the guidelines. You MUST strictly follow those guidelines when you use the actions.\n - Each action in the plan should strictly be one of the above types. Follow the Python conventions for each action.\n - Each action MUST have a unique ID, which is strictly increasing.\n - Inputs for actions can either be constants or outputs from preceding actions. In the latter case, use the format $id to denote the ID of the previous action whose output will be the input.\n - Always call join as the last action in the plan. Say '").toList
  ++ END_OF_PLAN ++
  ("' after you call join\n - Ensure the plan maximizes parallelizability.\n - Only use the provided action types. If a query cannot be addressed using these, invoke the join action for the next steps.\n - Never explain the plan with comments (e.g. #).\n - Never introduce new actions other than the ones provided.\n\n").toList

/-- The replan-only clauses (planner.py, lines 75–82). -/
def replanInstructions : List Char :=
  (" - You are given \"Previous Plan\" which is the plan that the previous agent created along with the execution results (given as Observation) of each plan and a general thought (given as Thought) about the executed results.You MUST use these information to create the next plan under \"Current Plan\".\n - When starting the Current Plan, you should start with \"Thought\" that outlines the strategy for the next plan.\n - In the Current Plan, you should NEVER repeat the actions that are already executed in the Previous Plan.\n").toList

/-- The `for i, tool in enumerate(tools)` loop body: the numbered tool
lines `f"{i+1}. {tool.description}\n"`. -/
def toolsSection (tools : List SpecTool) : List Char :=
  (tools.enum.map
    (fun p => (toString (p.1 + 1)).toList ++ ". ".toList ++ p.2.description ++ ['\n'])).flatten

/-- `generate_llm_compiler_prompt` (planner.py, lines 37–88).  The join
entry is numbered `i+2` where `i` is the loop variable left over from
enumerating the tools (`n` when `tools.length = n + 1`); an empty `tools`
leaves `i` unbound and raises a `NameError`.  Python's truthiness test
`if custom_instructions:` treats an empty string like `None`. -/
def generate_llm_compiler_prompt (tools : List SpecTool) (examplePrompt : List Char)
    (customInstructions : Option (List Char)) (isReplan : Bool) :
    Except PyNameError (List Char) :=
  match tools.length with
  | 0 => .error .unboundLoopVar
  | n + 1 =>
    .ok (("Given a user query, create a plan to solve it with the utmost parallelizability. Each plan should comprise an action from the following ").toList
      ++ (toString (tools.length + 1)).toList ++ (" types:\n").toList
      ++ toolsSection tools
      ++ (toString (n + 2)).toList ++ ". ".toList ++ JOIN_DESCRIPTION ++ ['\n', '\n']
      ++ plannerGuidelines
      ++ (match customInstructions with
          | some ci => if ci = [] then [] else ci ++ ['\n', '\n']
          | none => [])
      ++ (if isReplan then replanInstructions else [])
      ++ ("Here are some examples:\n\n").toList
      ++ examplePrompt)

/-- `p` occurs as a contiguous segment of `s`. -/
def IsSeg (p s : List Char) : Prop :=
  ∃ a b, s = a ++ p ++ b

theorem IsSeg_append_left {p s : List Char} (x : List Char) (h : IsSeg p s) :
    IsSeg p (x ++ s) := by
  obtain ⟨a, b, rfl⟩ := h
  exact ⟨x ++ a, b, by simp⟩

theorem IsSeg_append_right {p s : List Char} (y : List Char) (h : IsSeg p s) :
    IsSeg p (s ++ y) := by
  obtain ⟨a, b, rfl⟩ := h
  exact ⟨a, b ++ y, by simp⟩

theorem IsSeg_self_append (p y : List Char) : IsSeg p (p ++ y) :=
  ⟨[], y, by simp⟩

theorem IsSeg_of_mem_flatten {x : List Char} {parts : List (List Char)}
    (h : x ∈ parts) : IsSeg x parts.flatten := by
  induction parts with
  | nil => simp at h
  | cons hd tl ih =>
    rcases List.mem_cons.mp h with rfl | hmem
    · exact ⟨[], tl.flatten, by simp⟩
    · obtain ⟨a, b, hab⟩ := ih hmem
      exact ⟨hd ++ a, b, by simp [hab]⟩

/-- Claim C9: generating the planner system prompt fails (the join-entry
numbering reads the never-bound loop variable) exactly when no tool is
registered; for a non-empty tool sequence it succeeds, the produced prompt
contains the numbered entry `{i+1}. {description}` for every tool `i`, and
contains the join entry numbered `{n+1}` where `n` is the number of tools. -/
theorem generate_prompt_spec (tools : List SpecTool) (ex : List Char)
    (ci : Option (List Char)) (rp : Bool) :
    (tools = [] →
      generate_llm_compiler_prompt tools ex ci rp = .error .unboundLoopVar) ∧
    (tools ≠ [] → ∃ s,
      generate_llm_compiler_prompt tools ex ci rp = .ok s ∧
      (∀ i (h : i < tools.length),
        IsSeg ((toString (i + 1)).toList ++ ". ".toList ++
          (tools.get ⟨i, h⟩).description ++ ['\n']) s) ∧
      IsSeg ((toString (tools.length + 1)).toList ++ ". ".toList ++ JOIN_DESCRIPTION) s) := by
  constructor
  · intro h
    subst h
    rfl
  · intro hne
    cases tools with
    | nil => exact absurd rfl hne
    | cons t ts =>
      refine ⟨_, rfl, ?_, ?_⟩
      · intro i h
        have hmem : (i, (t :: ts).get ⟨i, h⟩) ∈ (t :: ts).enum := by
          have h2 : i < (t :: ts).enum.length := by simpa using h
          have h3 : (t :: ts).enum.get ⟨i, h2⟩ = (i, (t :: ts).get ⟨i, h⟩) := by
            simp [List.getElem_enum]
          rw [← h3]
          exact (t :: ts).enum.get_mem _ _
        have hjmem : ((toString (i + 1)).toList ++ ". ".toList ++
            ((t :: ts).get ⟨i, h⟩).description ++ ['\n']) ∈
            (t :: ts).enum.map (fun p =>
              (toString (p.1 + 1)).toList ++ ". ".toList ++ p.2.description ++ ['\n']) :=
          List.mem_map_of_mem _ hmem
        obtain ⟨a, b, hab⟩ := IsSeg_of_mem_flatten hjmem
        refine ⟨("Given a user query, create a plan to solve it with the utmost parallelizability. Each plan should comprise an action from the following ").toList ++
            (toString ((t :: ts).length + 1)).toList ++ (" types:\n").toList ++ a,
          b ++ (toString (ts.length + 2)).toList ++ ". ".toList ++ JOIN_DESCRIPTION ++
            ['\n', '\n'] ++ plannerGuidelines ++
            (match ci with
              | some x => if x = [] then [] else x ++ ['\n', '\n']
              | none => []) ++
            (if rp = true then replanInstructions else []) ++
            ("Here are some examples:\n\n").toList ++ ex, ?_⟩
        rw [show toolsSection (t :: ts) = a ++ ((toString (i + 1)).toList ++ ". ".toList ++
            ((t :: ts).get ⟨i, h⟩).description ++ ['\n']) ++ b from hab]
        simp [List.append_assoc]
      · have hn : (toString ((t :: ts).length + 1)).toList =
            (toString (ts.length + 2)).toList := by norm_num
        rw [hn]
        refine ⟨("Given a user query, create a plan to solve it with the utmost parallelizability. Each plan should comprise an action from the following ").toList ++
            (toString ((t :: ts).length + 1)).toList ++ (" types:\n").toList ++
            toolsSection (t :: ts),
          ['\n', '\n'] ++ plannerGuidelines ++
            (match ci with
              | some x => if x = [] then [] else x ++ ['\n', '\n']
              | none => []) ++
            (if rp = true then replanInstructions else []) ++
            ("Here are some examples:\n\n").toList ++ ex, ?_⟩
        simp [List.append_assoc]

/-- Witness for `generate_prompt_spec`: the empty registry raises, and a
one-tool registry produces a prompt containing `1. d1` and the join entry
numbered 2. -/
theorem generate_prompt_spec_witness :
    (generate_llm_compiler_prompt [] ("EX".toList) none false =
      .error .unboundLoopVar) ∧
    (∃ s, generate_llm_compiler_prompt [⟨"d1".toList⟩] ("EX".toList) none false = .ok s ∧
      (∀ i (h : i < ([⟨"d1".toList⟩] : List SpecTool).length),
        IsSeg ((toString (i + 1)).toList ++ ". ".toList ++
          (([⟨"d1".toList⟩] : List SpecTool).get ⟨i, h⟩).description ++ ['\n']) s) ∧
      IsSeg ((toString (([⟨"d1".toList⟩] : List SpecTool).length + 1)).toList ++
        ". ".toList ++ JOIN_DESCRIPTION) s) := by
  constructor
  · exact (generate_prompt_spec [] ("EX".toList) none false).1 rfl
  · exact (generate_prompt_spec [⟨"d1".toList⟩] ("EX".toList) none false).2
      (List.cons_ne_nil _ _)

end TinyAgentSpec

namespace TinyAgentSpec

/-! ## The streaming parser (`StreamingGraphParser`, planner.py 91–148)

`instantiate_task` is imported from `src/llm_compiler/output_parser.py`,
which is not part of the corpus; it is modelled from the spec below. -/

/-- `$k` occurs in `args` as a reference: `$` followed by exactly the
decimal digits of `k` (not extending into a longer number). -/
def hasRef (k : Nat) : List Char → Bool
  | [] => false
  | c :: r =>
    (c = '$' && (toString k).toList.isPrefixOf r &&
      !(isDigitC ((r.drop (toString k).toList.length).headD ' '))) || hasRef k r

/-- Modelled from the spec: the dependency computation of `instantiate_task`
(src/llm_compiler/output_parser.py is not part of the corpus).  §4.1: a
streamed Action task has "dependencies computed from `$k` references in
`raw_args`"; §3: `dependencies ⊆ {1 … idx-1}`. -/
def depsOf (idx : Nat) (args : List Char) : List Nat :=
  (List.range' 1 (idx - 1)).filter (fun k => hasRef k args)

/-- The tool-hallucination error of §4.1. -/
inductive ToolErr where
  | unknownTool (name : List Char)
  deriving DecidableEq

/-- Modelled from the spec: the string form of the tool-hallucination
exception raised by `instantiate_task` (src/llm_compiler/output_parser.py
is not part of the corpus); only its occurrence, not its wording, matters
to the claims. -/
def toolErrString : ToolErr → List Char
  | .unknownTool n => ("Tool ").toList ++ n ++ (" not found.").toList

/-- Modelled from the spec: `instantiate_task`
(src/llm_compiler/output_parser.py is not part of the corpus).  §4.1–4.2: a
matched Action line yields a fully constructed `Task` — arguments parsed by
the argument parser, dependencies computed from the `$k` references, the
stored thought attached, `is_join` iff the name is `join` — while a
`tool_name` that is neither `join` nor a registered tool raises the
tool-hallucination error. -/
def instantiate_task (litEval : List Char → Option PyValue)
    (tools : List (List Char)) (idx : Nat) (name args : List Char)
    (thought : List Char) : Except ToolErr Task :=
  if name = joinName ∨ name ∈ tools then
    .ok { idx := idx
          name := name
          args := parse_llm_compiler_action_args litEval args
          dependencies := depsOf idx args
          thought := some thought
          is_join := name = joinName }
  else .error (.unknownTool name)

/-- The mutable state of a `StreamingGraphParser` (planner.py, lines 94–95):
`buffer` and `thought`, both initially empty. -/
structure ParserState where
  buffer : List Char
  thought : List Char
  deriving DecidableEq

/-- A fresh `StreamingGraphParser`. -/
def init_parser_state : ParserState := ⟨[], []⟩

/-- `StreamingGraphParser._match_buffer_and_generate_task`
(planner.py, lines 101–130): try `THOUGHT_PATTERN`, then `ACTION_PATTERN`;
a thought match stores the text; an action match instantiates a task
(possibly raising) and clears the thought. -/
def match_buffer_and_generate_task (litEval : List Char → Option PyValue)
    (tools : List (List Char)) (st : ParserState) :
    Except ToolErr (ParserState × Option Task) :=
  match matchThought st.buffer with
  | some t => .ok ({ st with thought := t }, none)
  | none =>
    match actionCore st.buffer with
    | some mr =>
      match instantiate_task litEval tools mr.1.idx mr.1.name mr.1.args st.thought with
      | .ok task => .ok ({ st with thought := [] }, some task)
      | .error e => .error e
    | none => .ok (st, none)

/-- `token.split("\n", 1)` when the token contains a newline. -/
def splitFirstNL : List Char → Option (List Char × List Char)
  | [] => none
  | c :: r =>
    if c = '\n' then some ([], r)
    else (splitFirstNL r).map fun pq => (c :: pq.1, pq.2)

/-- `StreamingGraphParser.ingest_token` (planner.py, lines 132–144).  On a
raise inside the match, the parser object keeps the mutated buffer
(`self.buffer += prefix + "\n"` has run, `self.buffer = suffix` has not);
the error therefore carries the parser state as left at the raise. -/
def ingest_token (litEval : List Char → Option PyValue)
    (tools : List (List Char)) (st : ParserState) (tok : List Char) :
    Except (ToolErr × ParserState) (ParserState × Option Task) :=
  match splitFirstNL tok with
  | some pq =>
    match match_buffer_and_generate_task litEval tools
        { st with buffer := st.buffer ++ pyStrip pq.1 ++ ['\n'] } with
    | .ok (st2, r) => .ok ({ st2 with buffer := pq.2 }, r)
    | .error e => .error (e, { st with buffer := st.buffer ++ pyStrip pq.1 ++ ['\n'] })
  | none => .ok ({ st with buffer := st.buffer ++ tok }, none)

/-- `StreamingGraphParser.finalize` (planner.py, lines 146–148). -/
def finalize (litEval : List Char → Option PyValue)
    (tools : List (List Char)) (st : ParserState) :
    Except ToolErr (ParserState × Option Task) :=
  match_buffer_and_generate_task litEval tools
    { st with buffer := st.buffer ++ ['\n'] }

end TinyAgentSpec

namespace TinyAgentSpec

/-- Claim C2, counterexample: `ingest_token` matches only the line completed
at the **first** newline of the token, not one line per newline.  On the
token `"Thought: a\nThought: b\n"` (two newlines, two Thought lines) the
parser stores the thought `"a"` and leaves the whole second line unconsumed
in the buffer; had every newline triggered a match, the stored thought
would be `"b"` and the buffer empty. -/
theorem ingest_token_not_every_newline :
    ingest_token (fun _ => none) [] init_parser_state
        ("Thought: a\nThought: b\n".toList) =
      .ok (⟨"Thought: b\n".toList, "a".toList⟩, none) ∧
    ("a".toList ≠ "b".toList ∧ "Thought: b\n".toList ≠ []) := by
  exact ⟨rfl, by decide, by decide⟩

/-- Claim C2 (amended): for every token, `ingest_token` appends the token to
the buffer when it contains no newline and returns no task; otherwise the
text before the **first** newline is stripped and appended to the buffer,
that completed buffer is matched once against the Thought and then the
Action pattern — a matched Thought stores its text and returns no task, a
matched Action returns a fully constructed task carrying the most recently
stored thought and clears it (and raises, leaving the appended buffer in
place, when the tool is unknown) — and the text after the first newline
replaces the buffer.  At most one line is matched per call. -/
theorem ingest_token_spec (litEval : List Char → Option PyValue)
    (tools : List (List Char)) (st : ParserState) (tok : List Char) :
    (splitFirstNL tok = none →
      ingest_token litEval tools st tok =
        .ok ({ st with buffer := st.buffer ++ tok }, none)) ∧
    (∀ pre suf, splitFirstNL tok = some (pre, suf) →
      (∀ t, matchThought (st.buffer ++ pyStrip pre ++ ['\n']) = some t →
        ingest_token litEval tools st tok = .ok (⟨suf, t⟩, none)) ∧
      (matchThought (st.buffer ++ pyStrip pre ++ ['\n']) = none →
        (∀ mr, actionCore (st.buffer ++ pyStrip pre ++ ['\n']) = some mr →
          (∀ task,
            instantiate_task litEval tools mr.1.idx mr.1.name mr.1.args st.thought =
              .ok task →
            ingest_token litEval tools st tok = .ok (⟨suf, []⟩, some task) ∧
            task.thought = some st.thought ∧ task.idx = mr.1.idx ∧
            task.name = mr.1.name ∧
            task.is_join = (decide (mr.1.name = joinName))) ∧
          (∀ e,
            instantiate_task litEval tools mr.1.idx mr.1.name mr.1.args st.thought =
              .error e →
            ingest_token litEval tools st tok =
              .error (e, { st with buffer := st.buffer ++ pyStrip pre ++ ['\n'] }))) ∧
        (actionCore (st.buffer ++ pyStrip pre ++ ['\n']) = none →
          ingest_token litEval tools st tok = .ok (⟨suf, st.thought⟩, none)))) := by
  constructor
  · intro hnl
    simp only [ingest_token, hnl]
  · intro pre suf hnl
    refine ⟨?_, ?_⟩
    · intro t ht
      simp only [ingest_token, hnl, match_buffer_and_generate_task, ht]
    · intro hth
      refine ⟨?_, ?_⟩
      · intro mr hac
        constructor
        · intro task htask
          refine ⟨?_, ?_, ?_, ?_, ?_⟩
          · simp only [ingest_token, hnl, match_buffer_and_generate_task, hth, hac, htask]
          · unfold instantiate_task at htask
            split at htask
            · simp only [Except.ok.injEq] at htask
              rw [← htask]
            · simp at htask
          · unfold instantiate_task at htask
            split at htask
            · simp only [Except.ok.injEq] at htask
              rw [← htask]
            · simp at htask
          · unfold instantiate_task at htask
            split at htask
            · simp only [Except.ok.injEq] at htask
              rw [← htask]
            · simp at htask
          · unfold instantiate_task at htask
            split at htask
            · simp only [Except.ok.injEq] at htask
              rw [← htask]
            · simp at htask
        · intro e he
          simp only [ingest_token, hnl, match_buffer_and_generate_task, hth, hac, he]
      · intro hac
        simp only [ingest_token, hnl, match_buffer_and_generate_task, hth, hac]

/-- Witness for `ingest_token_spec`: from a state with stored thought
`"go"`, ingesting `"1. join()\n"` emits the join task carrying that
thought and clears it. -/
theorem ingest_token_spec_witness :
    ingest_token (fun _ => none) [] ⟨[], "go".toList⟩ ("1. join()\n".toList) =
      .ok (⟨[], []⟩, some
        { idx := 1, name := joinName, args := .vtuple []
          dependencies := [], thought := some ("go".toList), is_join := true }) ∧
    (some ("go".toList) = some ("go".toList) ∧ true = decide (joinName = joinName)) := by
  have h := (((ingest_token_spec (fun _ => none) [] ⟨[], "go".toList⟩
      ("1. join()\n".toList)).2 ("1. join()".toList) [] rfl).2 rfl).1
      (⟨1, joinName, []⟩, ['\n']) rfl
  have h2 := h.1 _ rfl
  exact ⟨h2.1, rfl, by decide⟩

end TinyAgentSpec

namespace TinyAgentSpec

/-! ## The planner callback (`LLMCompilerCallback`, planner.py 158–247) -/

/-- The callback's state: its parser, `_curr_idx` (the idx of the last
successfully parsed task, initially 0), the task queue it fills
(`None` is the end-of-plan sentinel), and the streaming output channel. -/
structure CallbackState where
  parser : ParserState
  curr_idx : Nat
  task_queue : List (Option Task)
  streaming : List (List Char)

/-- A freshly constructed `LLMCompilerCallback` (planner.py, lines 164–172). -/
def init_callback_state : CallbackState := ⟨init_parser_state, 0, [], []⟩

/-- The observation string of the synthetic join task
(planner.py, line 205). -/
def earlyStopObservation (buf : List Char) (e : ToolErr) : List Char :=
  ("The plan generation was stopped due to an error in tool '").toList ++
    pyStrip buf ++ ("'! Error: ").toList ++ toolErrString e ++
    ("! You MUST correct this error and try again!").toList

/-- The outcome of `on_llm_new_token`: a normal return, or an exception
propagating out of the callback. -/
inductive TokenOutcome where
  | normal (st : CallbackState)
  | raised (st : CallbackState) (exc : PlannerExc)

/-- `LLMCompilerCallback.on_llm_new_token` (planner.py, lines 177–208).
On a successful ingest the token is echoed to the streaming channel and a
parsed task (if any) updates `_curr_idx`, is enqueued, and is followed by
the `None` sentinel when it is the join.  If the ingest raises, a synthetic
join task with `idx = _curr_idx + 1` and the error observation is enqueued,
followed by `None`, and `TinyAgentEarlyStop(str(e))` is raised (the token
is not echoed: the ingest is the first statement of the `try` block). -/
def on_llm_new_token (litEval : List Char → Option PyValue)
    (tools : List (List Char)) (cb : CallbackState) (tok : List Char) :
    TokenOutcome :=
  match ingest_token litEval tools cb.parser tok with
  | .ok (st', r) =>
    match r with
    | some task =>
      if task.is_join then
        .normal { parser := st', curr_idx := task.idx,
                  task_queue := cb.task_queue ++ [some task, none],
                  streaming := cb.streaming ++ [tok] }
      else
        .normal { parser := st', curr_idx := task.idx,
                  task_queue := cb.task_queue ++ [some task],
                  streaming := cb.streaming ++ [tok] }
    | none =>
      .normal { cb with parser := st', streaming := cb.streaming ++ [tok] }
  | .error epq =>
    match instantiate_task litEval tools (cb.curr_idx + 1) joinName [] [] with
    | .ok jt0 =>
      .raised { cb with
                  parser := epq.2,
                  task_queue := cb.task_queue ++
                    [some { jt0 with
                      observation := some (earlyStopObservation epq.2.buffer epq.1) },
                     none] }
        (.earlyStop (toolErrString epq.1))
    | .error _ => .normal cb

/-- Claim C3: when ingesting a token raises, the callback enqueues a
synthetic join task whose idx is `_curr_idx + 1` (one more than the idx of
the last successfully parsed task — the other two conjuncts show that
`_curr_idx` tracks exactly that, starting from 0), whose observation
contains the phrase `try again`, immediately followed by the end-of-plan
sentinel `None`, and then raises `TinyAgentEarlyStop`, which `on_llm_error`
recognizes and does not forward as an LLM error. -/
theorem parse_error_recovery (litEval : List Char → Option PyValue)
    (tools : List (List Char)) (cb : CallbackState) (tok : List Char) :
    (∀ e stE, ingest_token litEval tools cb.parser tok = .error (e, stE) →
      ∃ jt, on_llm_new_token litEval tools cb tok =
          .raised { cb with
              parser := stE,
              task_queue := cb.task_queue ++ [some jt, none] }
            (.earlyStop (toolErrString e)) ∧
        jt.idx = cb.curr_idx + 1 ∧ jt.is_join = true ∧
        IsSeg ("try again".toList) (jt.observation.getD []) ∧
        on_llm_error (.earlyStop (toolErrString e)) = none) ∧
    (∀ st' task, ingest_token litEval tools cb.parser tok = .ok (st', some task) →
      ∃ cb', on_llm_new_token litEval tools cb tok = .normal cb' ∧
        cb'.curr_idx = task.idx) ∧
    (∀ st', ingest_token litEval tools cb.parser tok = .ok (st', none) →
      ∃ cb', on_llm_new_token litEval tools cb tok = .normal cb' ∧
        cb'.curr_idx = cb.curr_idx) := by
  refine ⟨?_, ?_, ?_⟩
  · intro e stE hing
    have hjoin : instantiate_task litEval tools (cb.curr_idx + 1) joinName [] [] =
        .ok { idx := cb.curr_idx + 1, name := joinName,
              args := parse_llm_compiler_action_args litEval [],
              dependencies := depsOf (cb.curr_idx + 1) [],
              thought := some [], is_join := true } := by
      unfold instantiate_task
      rw [if_pos (Or.inl rfl)]
      simp
    refine ⟨{ idx := cb.curr_idx + 1, name := joinName,
              args := parse_llm_compiler_action_args litEval [],
              dependencies := depsOf (cb.curr_idx + 1) [],
              thought := some [], is_join := true,
              observation := some (earlyStopObservation stE.buffer e) },
      ?_, rfl, rfl, ?_, rfl⟩
    · simp only [on_llm_new_token, hing, hjoin]
    · refine ⟨("The plan generation was stopped due to an error in tool '").toList ++
        pyStrip stE.buffer ++ ("'! Error: ").toList ++ toolErrString e ++
        ("! You MUST correct this error and ").toList, ("!").toList, ?_⟩
      show earlyStopObservation stE.buffer e = _
      unfold earlyStopObservation
      have hsplit3 : ("! You MUST correct this error and try again!").toList =
          ("! You MUST correct this error and ").toList ++ ("try again").toList ++
            ("!").toList := by decide
      rw [hsplit3]
      simp [List.append_assoc]
  · intro st' task hing
    by_cases hj : task.is_join = true
    · refine ⟨{ parser := st', curr_idx := task.idx,
                task_queue := cb.task_queue ++ [some task, none],
                streaming := cb.streaming ++ [tok] }, ?_, rfl⟩
      simp only [on_llm_new_token, hing]
      rw [if_pos hj]
    · refine ⟨{ parser := st', curr_idx := task.idx,
                task_queue := cb.task_queue ++ [some task],
                streaming := cb.streaming ++ [tok] }, ?_, rfl⟩
      simp only [on_llm_new_token, hing]
      rw [if_neg hj]
  · intro st' hing
    refine ⟨{ cb with parser := st', streaming := cb.streaming ++ [tok] }, ?_, rfl⟩
    simp only [on_llm_new_token, hing]

/-- Witness for `parse_error_recovery`: from a fresh callback with an empty
registry, the token `"1. bad(x)\n"` makes the ingest raise; the callback
enqueues a join task with idx 1 whose observation contains `try again`,
then `None`, and raises the early stop, which `on_llm_error` swallows. -/
theorem parse_error_recovery_witness :
    ∃ jt, on_llm_new_token (fun _ => none) [] init_callback_state
          ("1. bad(x)\n".toList) =
        .raised { init_callback_state with
            parser := ⟨"1. bad(x)\n".toList, []⟩,
            task_queue := [some jt, none] }
          (.earlyStop (toolErrString (.unknownTool ("bad".toList)))) ∧
      jt.idx = 1 ∧ jt.is_join = true ∧
      IsSeg ("try again".toList) (jt.observation.getD []) ∧
      on_llm_error (.earlyStop (toolErrString (.unknownTool ("bad".toList)))) = none := by
  have h := (parse_error_recovery (fun _ => none) [] init_callback_state
      ("1. bad(x)\n".toList)).1 (.unknownTool ("bad".toList))
      ⟨"1. bad(x)\n".toList, []⟩ rfl
  obtain ⟨jt, heq, h1, h2, h3, h4⟩ := h
  exact ⟨jt, by simpa using heq, h1, h2, h3, h4⟩

end TinyAgentSpec

namespace TinyAgentSpec

/-! ## Claim C1: streaming parse versus batch parse

A plan text the planner might emit is modelled as a list of well-formed
Thought and Action lines; the streaming side ingests the rendered lines as
tokens, the batch side runs `parse_plan` on their concatenation. -/

/-- One emitted plan line: a thought, or an action `ds. n(a)` (the index is
kept as its digit string; both parsers convert it with `int`). -/
inductive PlanItem where
  | thought (t : List Char)
  | action (ds n a : List Char)

/-- The text of one plan line, including its terminating newline. -/
def renderItem : PlanItem → List Char
  | .thought t => thoughtLit ++ t ++ ['\n']
  | .action ds n a => ds ++ '.' :: ' ' :: (n ++ '(' :: (a ++ [')', '\n']))

/-- The full plan text. -/
def render : List PlanItem → List Char
  | [] => []
  | it :: r => renderItem it ++ render r

/-- The `(idx, tool_name, raw_args)` triples of the action lines, in order. -/
def actionsOf : List PlanItem → List (Nat × List Char × List Char)
  | [] => []
  | .thought _ :: r => actionsOf r
  | .action ds n a :: r => (digitsToNat ds, n, a) :: actionsOf r

/-- Well-formedness of one plan line: thoughts contain no newline and no
opening parenthesis; action indices are nonempty digit strings, action
names nonempty word strings, and raw arguments newline-free. -/
def WFitem : PlanItem → Prop
  | .thought t => '\n' ∉ t ∧ '(' ∉ t
  | .action ds n a => ds ≠ [] ∧ (∀ c ∈ ds, isDigitC c = true) ∧
      n ≠ [] ∧ (∀ c ∈ n, isWordC c = true) ∧ '\n' ∉ a

/-- A junk fragment the scanner may sit inside: the tail of a thought line. -/
def cleanJunk (junk : List Char) : Prop :=
  '\n' ∉ junk ∧ '(' ∉ junk

/-- The comparison the refinement claim is about (thought excluded — see the
counterexample). -/
def taskQuad (t : Task) : Nat × List Char × PyValue × Bool :=
  (t.idx, t.name, t.args, t.is_join)

/-- The quintuple the claim as stated compares. -/
def taskQuint (t : Task) : Nat × List Char × PyValue × Option (List Char) × Bool :=
  (t.idx, t.name, t.args, t.thought, t.is_join)

/-- The `(idx, name, args)` groups of a findall match. -/
def tripleOf (m : PlanMatch) : Nat × List Char × List Char :=
  (m.idx, m.name, m.args)

/-! ### List helpers for the scan proof -/

theorem takeWhile_append_nl {p : Char → Bool} (hnl : p '\n' = false) :
    ∀ (l R : List Char), (l ++ '\n' :: R).takeWhile p = l.takeWhile p := by
  intro l R
  induction l with
  | nil => simp [List.takeWhile, hnl]
  | cons c t ih =>
    by_cases hc : p c
    · simp [List.takeWhile, hc, ih]
    · simp [List.takeWhile, hc]

theorem takeWhile_all {p : Char → Bool} :
    ∀ {l : List Char}, (∀ c ∈ l, p c = true) → l.takeWhile p = l := by
  intro l
  induction l with
  | nil => intro _; rfl
  | cons c t ih =>
    intro hall
    have hc : p c = true := hall c (List.mem_cons_self c t)
    simp [List.takeWhile, hc, ih (fun x hx => hall x (List.mem_cons_of_mem _ hx))]

theorem takeWhile_append_stop {p : Char → Bool} {l : List Char} {c : Char}
    (hl : ∀ x ∈ l, p x = true) (hc : p c = false) (r : List Char) :
    (l ++ c :: r).takeWhile p = l := by
  induction l with
  | nil => simp [List.takeWhile, hc]
  | cons d t ih =>
    have hd : p d = true := hl d (List.mem_cons_self d t)
    simp [List.takeWhile, hd]
    exact ih (fun x hx => hl x (List.mem_cons_of_mem _ hx))

theorem dropWhile_append_of_ne_nil {p : Char → Bool} :
    ∀ {l : List Char} (m : List Char), l.dropWhile p ≠ [] →
      (l ++ m).dropWhile p = l.dropWhile p ++ m := by
  intro l
  induction l with
  | nil => intro m h; exact absurd rfl h
  | cons c t ih =>
    intro m h
    by_cases hc : p c
    · have h' : t.dropWhile p ≠ [] := by
        rwa [List.dropWhile_cons_of_pos hc] at h
      rw [List.cons_append, List.dropWhile_cons_of_pos hc,
        List.dropWhile_cons_of_pos hc]
      exact ih m h'
    · rw [List.cons_append, List.dropWhile_cons_of_neg hc,
        List.dropWhile_cons_of_neg hc]
      simp

theorem dropWhile_eq_self_of_head {p : Char → Bool} {c : Char} (t : List Char)
    (hc : p c = false) : (c :: t).dropWhile p = c :: t := by
  simp [List.dropWhile, hc]

theorem mem_of_mem_dropWhile {p : Char → Bool} {x : Char} {l : List Char}
    (h : x ∈ l.dropWhile p) : x ∈ l :=
  (List.dropWhile_sublist p).mem h

theorem mem_of_mem_takeWhile {p : Char → Bool} {x : Char} {l : List Char}
    (h : x ∈ l.takeWhile p) : x ∈ l :=
  (List.takeWhile_sublist p).mem h

theorem mem_of_mem_drop {x : Char} {l : List Char} {n : Nat}
    (h : x ∈ l.drop n) : x ∈ l :=
  (List.drop_sublist n l).mem h

theorem splitFirstNL_no_nl {l : List Char} (h : '\n' ∉ l) (R : List Char) :
    splitFirstNL (l ++ '\n' :: R) = some (l, R) := by
  induction l with
  | nil => simp [splitFirstNL]
  | cons c t ih =>
    have hc : c ≠ '\n' := fun hcc => h (hcc ▸ List.mem_cons_self c t)
    have ht : '\n' ∉ t := fun hm => h (List.mem_cons_of_mem _ hm)
    rw [List.cons_append]
    simp only [splitFirstNL, if_neg hc, ih ht, Option.map_some']

theorem pyStrip_of_ends {c d : Char} {x : List Char}
    (hc : isWS c = false) (hd : isWS d = false) :
    pyStrip (c :: (x ++ [d])) = c :: (x ++ [d]) := by
  unfold pyStrip
  rw [dropWhile_eq_self_of_head _ hc]
  have hrev : (c :: (x ++ [d])).reverse = d :: (x.reverse ++ [c]) := by
    simp
  rw [hrev, dropWhile_eq_self_of_head _ hd, ← hrev, List.reverse_reverse]

theorem pyStrip_head {c : Char} {x : List Char} (hc : isWS c = false) :
    ∃ y, pyStrip (c :: x) = c :: y := by
  unfold pyStrip
  rw [dropWhile_eq_self_of_head _ hc]
  induction x using List.reverseRecOn with
  | nil => exact ⟨[], by simp [List.dropWhile, hc]⟩
  | append_singleton z d ih =>
    by_cases hd : isWS d
    · obtain ⟨y, hy⟩ := ih
      refine ⟨y, ?_⟩
      have : (c :: (z ++ [d])).reverse = d :: (c :: z).reverse := by simp
      rw [this, List.dropWhile_cons_of_pos hd]
      exact hy
    · refine ⟨z ++ [d], ?_⟩
      have : (c :: (z ++ [d])).reverse = d :: (c :: z).reverse := by simp
      rw [this, List.dropWhile_cons_of_neg hd]
      simp

end TinyAgentSpec

namespace TinyAgentSpec

/-! ### Character-class facts -/

theorem digit_not_ws {c : Char} (h : isDigitC c = true) : isWS c = false := by
  by_contra hws
  rw [Bool.not_eq_false] at hws
  simp only [isWS, Bool.or_eq_true, decide_eq_true_eq] at hws
  rcases hws with ((((h1 | h2) | h3) | h4) | h5) | h6 <;>
    subst_eqs <;> simp [isDigitC] at h

theorem digit_ne_T {c : Char} (h : isDigitC c = true) : c ≠ 'T' := by
  intro hc
  subst hc
  simp [isDigitC] at h

theorem digit_ne_hash {c : Char} (h : isDigitC c = true) : c ≠ '#' := by
  intro hc
  subst hc
  simp [isDigitC] at h

theorem word_not_nl {c : Char} (h : isWordC c = true) : c ≠ '\n' := by
  intro hc
  subst hc
  simp [isWordC, isDigitC] at h

/-! ### `lastParenSplit` on rendered lines -/

theorem lastParenSplit_none {b : List Char} (h : ')' ∉ b) :
    lastParenSplit b = none := by
  induction b with
  | nil => rfl
  | cons c r ih =>
    have hc : c ≠ ')' := fun hcc => h (hcc ▸ List.mem_cons_self c r)
    have hr : ')' ∉ r := fun hm => h (List.mem_cons_of_mem _ hm)
    unfold lastParenSplit
    rw [ih hr]
    simp [hc]

theorem lastParenSplit_append {a b : List Char} (h : ')' ∉ b) :
    lastParenSplit (a ++ ')' :: b) = some (a, b) := by
  induction a with
  | nil =>
    rw [List.nil_append]
    simp only [lastParenSplit, lastParenSplit_none h]
    simp
  | cons c a' ih =>
    rw [List.cons_append]
    simp only [lastParenSplit, ih]

/-! ### `commentSkip` and `actionCore` on rendered text -/

theorem commentSkip_nl {rest0 : List Char}
    (hrest : rest0 = [] ∨ ∃ c r, rest0 = c :: r ∧ isWS c = false ∧ c ≠ '#') :
    commentSkip ('\n' :: rest0) = '\n' :: rest0 := by
  rcases hrest with rfl | ⟨c, r, rfl, hcws, hch⟩
  · rfl
  · have h : ('\n' :: c :: r).dropWhile isWS = c :: r := by
      rw [List.dropWhile_cons_of_pos (by decide), dropWhile_eq_self_of_head _ hcws]
    simp only [commentSkip, h]
    rw [if_neg hch]

theorem actionCore_ws_congr {s s' : List Char}
    (h : s.dropWhile isWS = s'.dropWhile isWS) : actionCore s = actionCore s' := by
  simp only [actionCore, h]

theorem actionCore_nonaction_head {s : List Char}
    (h : s = [] ∨ ∃ r, s = 'T' :: r) : actionCore s = none := by
  rcases h with rfl | ⟨r, rfl⟩
  · rfl
  · simp only [actionCore]
    rw [dropWhile_eq_self_of_head _ (by decide)]
    rw [List.takeWhile_cons_of_neg (by decide)]
    simp

/-! ### `matchThought` head facts -/

theorem matchThought_head_ne {c : Char} (x : List Char) (hc : c ≠ 'T') :
    matchThought (c :: x) = none := by
  unfold matchThought
  rw [if_neg]
  intro hp
  have := List.isPrefixOf_iff_prefix.mp hp
  rw [show thoughtLit = 'T' :: ['h', 'o', 'u', 'g', 'h', 't', ':', ' '] from rfl] at this
  rw [List.cons_prefix_cons] at this
  exact hc this.1.symm

theorem matchThought_render {t : List Char} (ht : '\n' ∉ t) (R : List Char) :
    matchThought (thoughtLit ++ (t ++ '\n' :: R)) = some t := by
  unfold matchThought
  rw [if_pos (List.isPrefixOf_iff_prefix.mpr (List.prefix_append _ _))]
  rw [List.drop_left]
  congr 1
  rw [takeWhile_append_nl (by simp)]
  apply takeWhile_all
  intro c hc
  simp only [decide_eq_true_eq]
  exact fun hcc => ht (hcc ▸ hc)

theorem prefix_of_append_nl {p junk R : List Char} (hnp : '\n' ∉ p)
    (h : p <+: junk ++ '\n' :: R) : p <+: junk := by
  induction p generalizing junk with
  | nil => exact List.nil_prefix
  | cons c p' ih =>
    cases junk with
    | nil =>
      rw [List.nil_append, List.cons_prefix_cons] at h
      exact absurd h.1 (by
        intro hc
        exact hnp (hc ▸ List.mem_cons_self c p'))
    | cons d junk' =>
      rw [List.cons_append, List.cons_prefix_cons] at h
      rw [List.cons_prefix_cons]
      exact ⟨h.1, ih (fun hm => hnp (List.mem_cons_of_mem _ hm)) h.2⟩

end TinyAgentSpec

namespace TinyAgentSpec

/-- `ACTION_PATTERN` on a well-formed rendered action line followed by the
rest of the plan: the match consumes the line up to its closing `)` (the
comment group is empty) and captures exactly the rendered groups. -/
theorem actionCore_render {ds n a rest0 : List Char}
    (hds : ds ≠ []) (hdsd : ∀ c ∈ ds, isDigitC c = true)
    (hn : n ≠ []) (hnw : ∀ c ∈ n, isWordC c = true) (ha : '\n' ∉ a)
    (hrest : rest0 = [] ∨ ∃ c r, rest0 = c :: r ∧ isWS c = false ∧ c ≠ '#') :
    actionCore (ds ++ '.' :: ' ' :: (n ++ '(' :: (a ++ ')' :: '\n' :: rest0))) =
      some (⟨digitsToNat ds, n, a⟩, '\n' :: rest0) := by
  obtain ⟨d, ds', rfl⟩ := List.exists_cons_of_ne_nil hds
  have hd : isDigitC d = true := hdsd d (List.mem_cons_self _ _)
  have h1 : ((d :: ds') ++ '.' :: ' ' :: (n ++ '(' :: (a ++ ')' :: '\n' :: rest0))).dropWhile isWS =
      (d :: ds') ++ '.' :: ' ' :: (n ++ '(' :: (a ++ ')' :: '\n' :: rest0)) := by
    rw [List.cons_append]
    exact dropWhile_eq_self_of_head _ (digit_not_ws hd)
  have h2 : ((d :: ds') ++ '.' :: ' ' :: (n ++ '(' :: (a ++ ')' :: '\n' :: rest0))).takeWhile isDigitC =
      d :: ds' := takeWhile_append_stop hdsd (by decide) _
  have h3 : ((d :: ds') ++ '.' :: ' ' :: (n ++ '(' :: (a ++ ')' :: '\n' :: rest0))).drop (d :: ds').length =
      '.' :: ' ' :: (n ++ '(' :: (a ++ ')' :: '\n' :: rest0)) := List.drop_left _ _
  have h4 : (n ++ '(' :: (a ++ ')' :: '\n' :: rest0)).takeWhile isWordC = n :=
    takeWhile_append_stop hnw (by decide) _
  have h5 : (n ++ '(' :: (a ++ ')' :: '\n' :: rest0)).drop n.length =
      '(' :: (a ++ ')' :: '\n' :: rest0) := List.drop_left _ _
  have hline0 : a ++ ')' :: '\n' :: rest0 = (a ++ [')']) ++ '\n' :: rest0 := by simp
  have h6 : (a ++ ')' :: '\n' :: rest0).takeWhile (fun c => c ≠ '\n') = a ++ [')'] := by
    rw [hline0]
    apply takeWhile_append_stop
    · intro x hx
      simp only [decide_eq_true_eq]
      rcases List.mem_append.mp hx with hxa | hxp
      · exact fun hcc => ha (hcc ▸ hxa)
      · simp only [List.mem_singleton] at hxp
        subst hxp
        decide
    · decide
  have h7 : lastParenSplit (a ++ [')']) = some (a, []) := by
    have := lastParenSplit_append (a := a) (b := []) (by simp)
    simpa using this
  have h8 : (a ++ ')' :: '\n' :: rest0).drop (a ++ [')']).length = '\n' :: rest0 := by
    rw [hline0]
    exact List.drop_left _ _
  simp only [actionCore, h1, h2, h3, h4, h5, h6, h7, h8]
  rw [if_neg (by simp)]
  rw [if_pos ⟨trivial, trivial⟩]
  rw [if_neg hn]
  rw [if_pos trivial]
  simp only [List.nil_append]
  rw [commentSkip_nl hrest]

/-- `ACTION_PATTERN` cannot start inside a thought-line fragment that
contains a non-whitespace character: the required `(` would have to occur
before the next newline, but the fragment contains no `(`. -/
theorem actionCore_junk_none {junk R : List Char}
    (hnl : '\n' ∉ junk) (hpar : '(' ∉ junk)
    (hne : junk.dropWhile isWS ≠ []) :
    actionCore (junk ++ '\n' :: R) = none := by
  have hdw : (junk ++ '\n' :: R).dropWhile isWS = junk.dropWhile isWS ++ '\n' :: R :=
    dropWhile_append_of_ne_nil _ hne
  obtain ⟨c, j, hj⟩ := List.exists_cons_of_ne_nil hne
  have hmemj : ∀ x ∈ c :: j, x ∈ junk := by
    intro x hx
    exact mem_of_mem_dropWhile (hj ▸ hx)
  have hjnl : '\n' ∉ c :: j := fun hm => hnl (hmemj _ hm)
  have hjpar : '(' ∉ c :: j := fun hm => hpar (hmemj _ hm)
  simp only [actionCore, hdw, hj]
  -- digits: confined to the junk fragment
  have hds : ((c :: j) ++ '\n' :: R).takeWhile isDigitC = (c :: j).takeWhile isDigitC :=
    takeWhile_append_nl (by decide) _ _
  rw [List.cons_append] at hds ⊢
  rw [hds]
  by_cases hds0 : (c :: j).takeWhile isDigitC = []
  · rw [if_pos hds0]
  · rw [if_neg hds0]
    have hlen : ((c :: j).takeWhile isDigitC).length ≤ (c :: j).length :=
      length_takeWhile_le _ _
    have hdrop : (c :: (j ++ '\n' :: R)).drop ((c :: j).takeWhile isDigitC).length =
        ((c :: j).drop ((c :: j).takeWhile isDigitC).length) ++ '\n' :: R := by
      rw [← List.cons_append]
      exact List.drop_append_of_le_length hlen
    rw [hdrop]
    -- the rest of the fragment after the digits
    set rest1 := (c :: j).drop ((c :: j).takeWhile isDigitC).length with hrest1
    have hmemr : ∀ x ∈ rest1, x ∈ junk := fun x hx => hmemj _ (mem_of_mem_drop hx)
    cases hrl : rest1 with
    | nil => cases R <;> simp
    | cons e rest2 =>
      rw [List.cons_append]
      cases rest2 with
      | nil => simp
      | cons f rest3 =>
        rw [List.cons_append]
        by_cases hef : e = '.' ∧ f = ' '
        · obtain ⟨rfl, rfl⟩ := hef
          have hmem3 : ∀ x ∈ rest3, x ∈ junk := by
            intro x hx
            exact hmemr x (hrl ▸ List.mem_cons_of_mem _ (List.mem_cons_of_mem _ hx))
          have hw : (rest3 ++ '\n' :: R).takeWhile isWordC = rest3.takeWhile isWordC :=
            takeWhile_append_nl (by decide) _ _
          by_cases hw0 : rest3.takeWhile isWordC = []
          · simp [hw, hw0]
          · have hlw : (rest3.takeWhile isWordC).length ≤ rest3.length :=
              length_takeWhile_le _ _
            have hdw2 : (rest3 ++ '\n' :: R).drop ((rest3.takeWhile isWordC)).length =
                rest3.drop ((rest3.takeWhile isWordC)).length ++ '\n' :: R :=
              List.drop_append_of_le_length hlw
            cases hd3 : rest3.drop ((rest3.takeWhile isWordC)).length with
            | nil => simp [hw, hw0, hdw2, hd3]
            | cons g rest4 =>
              have hg : g ∈ junk := hmem3 g (mem_of_mem_drop (hd3 ▸ List.mem_cons_self _ _))
              have hgp : g ≠ '(' := fun hgg => hpar (hgg ▸ hg)
              simp [hw, hw0, hdw2, hd3, hgp]
        · simp [hef]

end TinyAgentSpec

namespace TinyAgentSpec

/-! ### Rendered plans: shape facts -/

/-- The remaining items do not start with an action line. -/
def nonAction : List PlanItem → Prop
  | [] => True
  | .thought _ :: _ => True
  | .action _ _ _ :: _ => False

/-- The `(idx, name, args, is_join)` quadruple determined by a match triple;
both parsers build exactly these four task fields from the regex groups. -/
def quadOfTriple (litEval : List Char → Option PyValue)
    (x : Nat × List Char × List Char) : Nat × List Char × PyValue × Bool :=
  (x.1, x.2.1, parse_llm_compiler_action_args litEval x.2.2,
    decide (x.2.1 = joinName))

/-- `thoughtLit` without its leading `T`. -/
def thoughtTail : List Char := ['h', 'o', 'u', 'g', 'h', 't', ':', ' ']

theorem render_cons_thought (t : List Char) (r : List PlanItem) :
    render (.thought t :: r) = thoughtLit ++ (t ++ '\n' :: render r) := by
  simp [render, renderItem, List.append_assoc]

theorem render_cons_action (ds n a : List Char) (r : List PlanItem) :
    render (.action ds n a :: r) =
      ds ++ '.' :: ' ' :: (n ++ '(' :: (a ++ ')' :: '\n' :: render r)) := by
  simp [render, renderItem, List.append_assoc]

theorem dropWhile_append_nil {p : Char → Bool} :
    ∀ {l : List Char} (m : List Char), l.dropWhile p = [] →
      (l ++ m).dropWhile p = m.dropWhile p := by
  intro l
  induction l with
  | nil => intro m _; rfl
  | cons c t ih =>
    intro m h
    by_cases hc : p c
    · rw [List.dropWhile_cons_of_pos hc] at h
      rw [List.cons_append, List.dropWhile_cons_of_pos hc]
      exact ih m h
    · rw [List.dropWhile_cons_of_neg hc] at h
      simp at h

theorem drop_thought_line (t R : List Char) :
    (thoughtLit ++ (t ++ '\n' :: R)).drop (thoughtLit.length + t.length) =
      '\n' :: R := by
  rw [← List.append_assoc]
  rw [show thoughtLit.length + t.length = (thoughtLit ++ t).length by simp]
  exact List.drop_left _ _

theorem render_head_ok {items : List PlanItem} (h : ∀ it ∈ items, WFitem it) :
    render items = [] ∨
      ∃ c r, render items = c :: r ∧ isWS c = false ∧ c ≠ '#' := by
  cases items with
  | nil => exact Or.inl rfl
  | cons it rest =>
    cases it with
    | thought t =>
      refine Or.inr ⟨'T', thoughtTail ++ (t ++ '\n' :: render rest), ?_,
        by decide, by decide⟩
      rw [render_cons_thought]
      rfl
    | action ds n a =>
      obtain ⟨hds, hdsd, -, -, -⟩ := h _ (List.mem_cons_self _ _)
      obtain ⟨d, ds', rfl⟩ := List.exists_cons_of_ne_nil hds
      have hd : isDigitC d = true := hdsd d (List.mem_cons_self _ _)
      refine Or.inr ⟨d,
        ds' ++ '.' :: ' ' :: (n ++ '(' :: (a ++ ')' :: '\n' :: render rest)),
        ?_, digit_not_ws hd, digit_ne_hash hd⟩
      rw [render_cons_action]
      rfl

theorem actionCore_render_nonAction {items : List PlanItem}
    (h : nonAction items) : actionCore (render items) = none := by
  cases items with
  | nil => rfl
  | cons it rest =>
    cases it with
    | thought t =>
      apply actionCore_nonaction_head
      refine Or.inr ⟨thoughtTail ++ (t ++ '\n' :: render rest), ?_⟩
      rw [render_cons_thought]
      rfl
    | action ds n a => exact h.elim

theorem tryMatch_no_thought {s : List Char} (h : matchThought s = none) :
    tryMatch s =
      (actionCore s).map
        fun mr => (⟨none, mr.1.idx, mr.1.name, mr.1.args⟩, mr.2) := by
  simp only [tryMatch, h]

theorem tryMatch_thought_action {t ds n a R' : List Char}
    (ht : '\n' ∉ t)
    (hds : ds ≠ []) (hdsd : ∀ c ∈ ds, isDigitC c = true)
    (hn : n ≠ []) (hnw : ∀ c ∈ n, isWordC c = true) (ha : '\n' ∉ a)
    (hrest : R' = [] ∨ ∃ c r, R' = c :: r ∧ isWS c = false ∧ c ≠ '#') :
    tryMatch (thoughtLit ++ (t ++ '\n' ::
        (ds ++ '.' :: ' ' :: (n ++ '(' :: (a ++ ')' :: '\n' :: R'))))) =
      some (⟨some t, digitsToNat ds, n, a⟩, '\n' :: R') := by
  have hmt := matchThought_render ht
    (ds ++ '.' :: ' ' :: (n ++ '(' :: (a ++ ')' :: '\n' :: R')))
  have hdp := drop_thought_line t
    (ds ++ '.' :: ' ' :: (n ++ '(' :: (a ++ ')' :: '\n' :: R')))
  have hac := actionCore_render hds hdsd hn hnw ha hrest
  simp only [tryMatch, hmt, hdp]
  simp [hac]

theorem tryMatch_action {ds n a R' : List Char}
    (hds : ds ≠ []) (hdsd : ∀ c ∈ ds, isDigitC c = true)
    (hn : n ≠ []) (hnw : ∀ c ∈ n, isWordC c = true) (ha : '\n' ∉ a)
    (hrest : R' = [] ∨ ∃ c r, R' = c :: r ∧ isWS c = false ∧ c ≠ '#') :
    tryMatch (ds ++ '.' :: ' ' :: (n ++ '(' :: (a ++ ')' :: '\n' :: R'))) =
      some (⟨none, digitsToNat ds, n, a⟩, '\n' :: R') := by
  obtain ⟨d, ds', rfl⟩ := List.exists_cons_of_ne_nil hds
  have hd : isDigitC d = true := hdsd d (List.mem_cons_self _ _)
  have hmt : matchThought
      ((d :: ds') ++ '.' :: ' ' :: (n ++ '(' :: (a ++ ')' :: '\n' :: R'))) =
        none := by
    rw [List.cons_append]
    exact matchThought_head_ne _ (digit_ne_T hd)
  rw [tryMatch_no_thought hmt, actionCore_render hds hdsd hn hnw ha hrest]
  rfl

theorem actionCore_nl (X : List Char) : actionCore ('\n' :: X) = actionCore X :=
  actionCore_ws_congr (by rw [List.dropWhile_cons_of_pos (by decide)])

theorem tryMatch_nl (X : List Char) :
    tryMatch ('\n' :: X) =
      (actionCore X).map
        fun mr => (⟨none, mr.1.idx, mr.1.name, mr.1.args⟩, mr.2) := by
  rw [tryMatch_no_thought (matchThought_head_ne _ (by decide)), actionCore_nl]

theorem tryMatch_junk {junk R : List Char} (hnl : '\n' ∉ junk)
    (hpar : '(' ∉ junk) (hR : actionCore R = none) :
    tryMatch (junk ++ '\n' :: R) = none := by
  have hac : actionCore (junk ++ '\n' :: R) = none := by
    by_cases hws : junk.dropWhile isWS = []
    · have h0 : (junk ++ '\n' :: R).dropWhile isWS = R.dropWhile isWS := by
        rw [dropWhile_append_nil _ hws, List.dropWhile_cons_of_pos (by decide)]
      rw [actionCore_ws_congr h0, hR]
    · exact actionCore_junk_none hnl hpar hws
  by_cases hp : thoughtLit.isPrefixOf (junk ++ '\n' :: R)
  · have hpre : thoughtLit <+: junk :=
      prefix_of_append_nl (by decide) (List.isPrefixOf_iff_prefix.mp hp)
    obtain ⟨jr, hjr⟩ := hpre
    subst hjr
    have hjrn : '\n' ∉ jr := fun hm => hnl (List.mem_append_right _ hm)
    have hmt : matchThought ((thoughtLit ++ jr) ++ '\n' :: R) = some jr := by
      rw [List.append_assoc]
      exact matchThought_render hjrn R
    have hdp : ((thoughtLit ++ jr) ++ '\n' :: R).drop
        (thoughtLit.length + jr.length) = '\n' :: R := by
      rw [List.append_assoc]
      exact drop_thought_line jr R
    simp only [tryMatch, hmt, hdp]
    simp [hR, hac]
    rw [← List.append_assoc]
    exact hac
  · have hmt : matchThought (junk ++ '\n' :: R) = none := by
      unfold matchThought
      rw [if_neg hp]
    rw [tryMatch_no_thought hmt, hac]
    rfl

end TinyAgentSpec

namespace TinyAgentSpec

/-! ### The `re.findall` scan over a rendered plan -/

/-- Scanner-position invariant: the remaining input is the rendered rest of
the plan, or that preceded by the newline left over from a consumed action
line, or the tail of a partially consumed thought line. -/
def ScanInv (items : List PlanItem) (s : List Char) : Prop :=
  s = render items ∨ s = '\n' :: render items ∨
    ∃ junk, junk ≠ [] ∧ cleanJunk junk ∧ nonAction items ∧
      s = junk ++ '\n' :: render items

/-- The statement proved by induction on the scanner fuel. -/
def ScanIH (fuel : Nat) : Prop :=
  ∀ (items : List PlanItem) (s : List Char), (∀ it ∈ items, WFitem it) →
    ScanInv items s → s.length + 1 ≤ fuel →
    (findAllAux fuel s).map tripleOf = actionsOf items

theorem scan_junk_step {fuel : Nat} (ih : ScanIH fuel) {items : List PlanItem}
    {junk : List Char} (hwf : ∀ it ∈ items, WFitem it) (hjne : junk ≠ [])
    (hjnl : '\n' ∉ junk) (hjpar : '(' ∉ junk) (hna : nonAction items)
    (hlen : (junk ++ '\n' :: render items).length ≤ fuel) :
    (findAllAux (fuel + 1) (junk ++ '\n' :: render items)).map tripleOf =
      actionsOf items := by
  have hTM : tryMatch (junk ++ '\n' :: render items) = none :=
    tryMatch_junk hjnl hjpar (actionCore_render_nonAction hna)
  obtain ⟨c, j, rfl⟩ := List.exists_cons_of_ne_nil hjne
  rw [List.cons_append] at hTM hlen ⊢
  simp only [findAllAux, hTM]
  by_cases hj0 : j = []
  · subst hj0
    exact ih items _ hwf (Or.inr (Or.inl rfl))
      (by simp at hlen ⊢; omega)
  · exact ih items _ hwf
      (Or.inr (Or.inr ⟨j, hj0,
        ⟨fun hm => hjnl (List.mem_cons_of_mem _ hm),
         fun hm => hjpar (List.mem_cons_of_mem _ hm)⟩, hna, rfl⟩))
      (by simp at hlen ⊢; omega)

theorem scan_nl_step {fuel : Nat} (ih : ScanIH fuel) {items : List PlanItem}
    (hwf : ∀ it ∈ items, WFitem it)
    (hlen : ('\n' :: render items).length ≤ fuel) :
    (findAllAux (fuel + 1) ('\n' :: render items)).map tripleOf =
      actionsOf items := by
  cases items with
  | nil =>
    have hTM : tryMatch ('\n' :: render ([] : List PlanItem)) = none := by
      rw [tryMatch_nl,
        actionCore_render_nonAction (show nonAction ([] : List PlanItem) by trivial)]
      rfl
    simp only [findAllAux, hTM]
    exact ih [] _ hwf (Or.inl rfl) (by simpa using hlen)
  | cons it rest =>
    have hwft : ∀ x ∈ rest, WFitem x :=
      fun x hx => hwf x (List.mem_cons_of_mem _ hx)
    cases it with
    | thought t =>
      have hTM : tryMatch ('\n' :: render (.thought t :: rest)) = none := by
        rw [tryMatch_nl,
          actionCore_render_nonAction (show nonAction (.thought t :: rest) by trivial)]
        rfl
      simp only [findAllAux, hTM]
      exact ih _ _ hwf (Or.inl rfl) (by simpa using hlen)
    | action ds n a =>
      obtain ⟨hds, hdsd, hn, hnw, ha⟩ := hwf _ (List.mem_cons_self _ _)
      have hTM : tryMatch ('\n' :: render (.action ds n a :: rest)) =
          some (⟨none, digitsToNat ds, n, a⟩, '\n' :: render rest) := by
        rw [render_cons_action, tryMatch_nl,
          actionCore_render hds hdsd hn hnw ha (render_head_ok hwft)]
        rfl
      have hlt := tryMatch_rest_lt hTM
      have hrec := ih rest ('\n' :: render rest) hwft (Or.inr (Or.inl rfl))
        (by simp at hlen hlt ⊢; omega)
      simp only [findAllAux, hTM, List.map_cons, hrec, actionsOf, tripleOf]

theorem scan_start_step {fuel : Nat} (ih : ScanIH fuel)
    {items : List PlanItem} (hwf : ∀ it ∈ items, WFitem it)
    (hlen : (render items).length ≤ fuel) :
    (findAllAux (fuel + 1) (render items)).map tripleOf = actionsOf items := by
  cases items with
  | nil =>
    have h0 : tryMatch ([] : List Char) = none := rfl
    simp [findAllAux, render, h0, actionsOf]
  | cons it rest =>
    have hwft : ∀ x ∈ rest, WFitem x :=
      fun x hx => hwf x (List.mem_cons_of_mem _ hx)
    cases it with
    | action ds n a =>
      obtain ⟨hds, hdsd, hn, hnw, ha⟩ := hwf _ (List.mem_cons_self _ _)
      have hTM : tryMatch (render (.action ds n a :: rest)) =
          some (⟨none, digitsToNat ds, n, a⟩, '\n' :: render rest) := by
        rw [render_cons_action]
        exact tryMatch_action hds hdsd hn hnw ha (render_head_ok hwft)
      have hlt := tryMatch_rest_lt hTM
      have hrec := ih rest ('\n' :: render rest) hwft (Or.inr (Or.inl rfl))
        (by simp at hlen hlt ⊢; omega)
      simp only [findAllAux, hTM, List.map_cons, hrec, actionsOf, tripleOf]
    | thought t =>
      obtain ⟨ht, hpt⟩ := hwf _ (List.mem_cons_self _ _)
      have hsplit : render (.thought t :: rest) =
          (thoughtLit ++ t) ++ '\n' :: render rest := by
        rw [render_cons_thought, List.append_assoc]
      have hjn : thoughtLit ++ t ≠ [] := by simp [thoughtLit]
      have hjnl : '\n' ∉ thoughtLit ++ t := by
        intro hm
        rcases List.mem_append.mp hm with hm | hm
        · revert hm; decide
        · exact ht hm
      have hjpar : '(' ∉ thoughtLit ++ t := by
        intro hm
        rcases List.mem_append.mp hm with hm | hm
        · revert hm; decide
        · exact hpt hm
      cases rest with
      | nil =>
        rw [hsplit, show actionsOf (.thought t :: ([] : List PlanItem)) =
          actionsOf ([] : List PlanItem) from rfl]
        exact scan_junk_step ih hwft hjn hjnl hjpar trivial
          (by rw [← hsplit]; exact hlen)
      | cons it2 rest2 =>
        have hwft2 : ∀ x ∈ rest2, WFitem x :=
          fun x hx => hwft x (List.mem_cons_of_mem _ hx)
        cases it2 with
        | thought t2 =>
          rw [hsplit, show actionsOf (.thought t :: .thought t2 :: rest2) =
            actionsOf (.thought t2 :: rest2) from rfl]
          exact scan_junk_step ih hwft hjn hjnl hjpar trivial
            (by rw [← hsplit]; exact hlen)
        | action ds n a =>
          obtain ⟨hds, hdsd, hn, hnw, ha⟩ := hwft _ (List.mem_cons_self _ _)
          have hTM : tryMatch (render (.thought t :: .action ds n a :: rest2)) =
              some (⟨some t, digitsToNat ds, n, a⟩, '\n' :: render rest2) := by
            rw [render_cons_thought, render_cons_action]
            exact tryMatch_thought_action ht hds hdsd hn hnw ha
              (render_head_ok hwft2)
          have hlt := tryMatch_rest_lt hTM
          have hrec := ih rest2 ('\n' :: render rest2) hwft2
            (Or.inr (Or.inl rfl)) (by simp at hlen hlt ⊢; omega)
          simp only [findAllAux, hTM, List.map_cons, hrec, actionsOf, tripleOf]

theorem findAllAux_scan : ∀ fuel : Nat, ScanIH fuel := by
  intro fuel
  induction fuel with
  | zero => intro items s _ _ hlen; omega
  | succ fuel ih =>
    intro items s hwf hst hlen
    have hlen2 : s.length ≤ fuel := by omega
    rcases hst with rfl | rfl | ⟨junk, hjne, ⟨hjnl, hjpar⟩, hna, rfl⟩
    · exact scan_start_step ih hwf hlen2
    · exact scan_nl_step ih hwf hlen2
    · exact scan_junk_step ih hwf hjne hjnl hjpar hna hlen2

/-- `re.findall` on a rendered well-formed plan returns exactly the action
groups, in order. -/
theorem findAllPlan_render {items : List PlanItem}
    (hwf : ∀ it ∈ items, WFitem it) :
    (findAllPlan (render items)).map tripleOf = actionsOf items :=
  findAllAux_scan _ items _ hwf (Or.inl rfl) (Nat.le_refl _)

end TinyAgentSpec

namespace TinyAgentSpec

/-! ### The batch side: `parse_plan` as a map over the matches -/

theorem parse_plan_aux_append (litEval : List Char → Option PyValue) :
    ∀ (ms : List PlanMatch) (g : List (Nat × Task)),
      (∀ m ∈ ms, ∀ p ∈ g, p.1 ≠ m.idx) →
      (ms.map (fun m => m.idx)).Nodup →
      (∀ m ∈ ms.dropLast, ¬ m.name = joinName) →
      parse_plan_aux litEval ms g =
        g ++ ms.map (fun m => (m.idx, mkBatchTask litEval m)) := by
  intro ms
  induction ms with
  | nil => intro g _ _ _; simp [parse_plan_aux]
  | cons m ms' ih =>
    intro g hfresh hnd hjoin
    have hins : insertTask g m.idx (mkBatchTask litEval m) =
        g ++ [(m.idx, mkBatchTask litEval m)] :=
      insertTask_fresh (fun p hp => hfresh m (List.mem_cons_self _ _) p hp)
    simp only [parse_plan_aux, hins]
    by_cases hj : (mkBatchTask litEval m).is_join = true
    · rw [if_pos hj]
      cases ms' with
      | nil => simp
      | cons m2 ms2 =>
        have hmem : m ∈ (m :: m2 :: ms2).dropLast := by
          rw [List.dropLast_cons₂]
          exact List.mem_cons_self _ _
        have hmj : m.name = joinName := of_decide_eq_true hj
        exact absurd hmj (hjoin m hmem)
    · rw [if_neg hj]
      have hnd1 : m.idx ∉ ms'.map (fun m2 => m2.idx) ∧
          (ms'.map (fun m2 => m2.idx)).Nodup :=
        List.nodup_cons.mp (by simpa using hnd)
      have hfresh2 : ∀ m2 ∈ ms',
          ∀ p ∈ g ++ [(m.idx, mkBatchTask litEval m)], p.1 ≠ m2.idx := by
        intro m2 hm2 p hp
        rcases List.mem_append.mp hp with hpg | hpm
        · exact hfresh m2 (List.mem_cons_of_mem _ hm2) p hpg
        · rw [List.mem_singleton] at hpm
          rw [hpm]
          intro hcon
          have hm2i : m2.idx ∈ ms'.map (fun m2 => m2.idx) :=
            List.mem_map_of_mem _ hm2
          rw [← hcon] at hm2i
          exact hnd1.1 hm2i
      have hjoin2 : ∀ m2 ∈ ms'.dropLast, ¬ m2.name = joinName := by
        intro m2 hm2
        apply hjoin m2
        cases ms' with
        | nil => simp at hm2
        | cons m3 ms3 =>
          rw [List.dropLast_cons₂]
          exact List.mem_cons_of_mem _ hm2
      rw [ih _ hfresh2 hnd1.2 hjoin2]
      simp

/-- `parse_plan` on a rendered plan whose action indices are distinct and
whose `join` (if any) is the last action: the graph dictionary lists one
task per action, in order, built from exactly the matched groups. -/
theorem parse_plan_quads (litEval : List Char → Option PyValue)
    {items : List PlanItem} (hwf : ∀ it ∈ items, WFitem it)
    (hnodup : ((actionsOf items).map (fun x => x.1)).Nodup)
    (hjoin : ∀ x ∈ (actionsOf items).dropLast, ¬ x.2.1 = joinName) :
    (parse_plan litEval (render items)).map (fun p => taskQuad p.2) =
      (actionsOf items).map (quadOfTriple litEval) := by
  have htr := findAllPlan_render hwf
  have hidx : (findAllPlan (render items)).map (fun m => m.idx) =
      (actionsOf items).map (fun x => x.1) := by
    rw [← htr, List.map_map]
    rfl
  have hnd : ((findAllPlan (render items)).map (fun m => m.idx)).Nodup := by
    rw [hidx]; exact hnodup
  have hdl : ∀ m ∈ (findAllPlan (render items)).dropLast,
      ¬ m.name = joinName := by
    intro m hm
    have hmem : tripleOf m ∈ (actionsOf items).dropLast := by
      rw [← htr, ← List.map_dropLast]
      exact List.mem_map_of_mem _ hm
    exact hjoin _ hmem
  have hfresh : ∀ m ∈ findAllPlan (render items),
      ∀ p ∈ ([] : List (Nat × Task)), p.1 ≠ m.idx := by
    intro m _ p hp
    simp at hp
  rw [show parse_plan litEval (render items) =
    parse_plan_aux litEval (findAllPlan (render items)) [] from rfl]
  rw [parse_plan_aux_append litEval _ [] hfresh hnd hdl]
  rw [List.nil_append, List.map_map, ← htr, List.map_map]
  rfl

end TinyAgentSpec

namespace TinyAgentSpec

/-! ### The streaming side: one rendered line per token -/

theorem ingest_thought_line (litEval : List Char → Option PyValue)
    (tools : List (List Char)) {st : ParserState} {t : List Char}
    (hbuf : st.buffer = []) (ht : '\n' ∉ t) :
    ∃ th, ingest_token litEval tools st (renderItem (.thought t)) =
      .ok (⟨[], th⟩, none) := by
  obtain ⟨b, th0⟩ := st
  have hb : b = [] := hbuf
  subst hb
  have htok : renderItem (.thought t) =
      ('T' :: (thoughtTail ++ t)) ++ '\n' :: [] := by
    simp [renderItem, thoughtLit, thoughtTail, List.append_assoc]
  have hnonl : '\n' ∉ 'T' :: (thoughtTail ++ t) := by
    intro hm
    rcases List.mem_cons.mp hm with hm | hm
    · revert hm; decide
    · rcases List.mem_append.mp hm with hm | hm
      · revert hm; decide
      · exact ht hm
  have hsplit2 : splitFirstNL ('T' :: ((thoughtTail ++ t) ++ ['\n'])) =
      some ('T' :: (thoughtTail ++ t), []) := by
    rw [← List.cons_append]
    exact splitFirstNL_no_nl hnonl []
  obtain ⟨y, hy⟩ : ∃ y, pyStrip ('T' :: (thoughtTail ++ t)) = 'T' :: y :=
    pyStrip_head (by decide)
  cases hm : matchThought ('T' :: (y ++ ['\n'])) with
  | some t2 =>
    refine ⟨t2, ?_⟩
    simp only [ingest_token, htok, hsplit2, match_buffer_and_generate_task, hy,
      List.nil_append, List.cons_append, hm]
  | none =>
    have hac : actionCore ('T' :: (y ++ ['\n'])) = none :=
      actionCore_nonaction_head (Or.inr ⟨_, rfl⟩)
    refine ⟨th0, ?_⟩
    simp only [ingest_token, htok, hsplit2, match_buffer_and_generate_task, hy,
      List.nil_append, List.cons_append, hm, hac]

theorem ingest_action_line (litEval : List Char → Option PyValue)
    (tools : List (List Char)) {st : ParserState} {ds n a : List Char}
    (hbuf : st.buffer = [])
    (hds : ds ≠ []) (hdsd : ∀ c ∈ ds, isDigitC c = true)
    (hn : n ≠ []) (hnw : ∀ c ∈ n, isWordC c = true) (ha : '\n' ∉ a)
    (hreg : n = joinName ∨ n ∈ tools) :
    ingest_token litEval tools st (renderItem (.action ds n a)) =
      .ok (⟨[], []⟩, some
        { idx := digitsToNat ds
          name := n
          args := parse_llm_compiler_action_args litEval a
          dependencies := depsOf (digitsToNat ds) a
          thought := some st.thought
          is_join := decide (n = joinName) }) := by
  obtain ⟨b, th0⟩ := st
  have hb : b = [] := hbuf
  subst hb
  obtain ⟨d, ds', rfl⟩ := List.exists_cons_of_ne_nil hds
  have hd : isDigitC d = true := hdsd d (List.mem_cons_self _ _)
  have htok : renderItem (.action (d :: ds') n a) =
      (d :: ((ds' ++ '.' :: ' ' :: (n ++ '(' :: a)) ++ [')'])) ++ '\n' :: [] := by
    simp [renderItem, List.append_assoc]
  have hnonl : '\n' ∉ d :: ((ds' ++ '.' :: ' ' :: (n ++ '(' :: a)) ++ [')']) := by
    intro hm
    rcases List.mem_cons.mp hm with hm | hm
    · rw [← hm] at hd
      exact absurd hd (by decide)
    · rcases List.mem_append.mp hm with hm | hm
      · rcases List.mem_append.mp hm with hm | hm
        · exact absurd (hdsd _ (List.mem_cons_of_mem _ hm)) (by decide)
        · rcases List.mem_cons.mp hm with hm | hm
          · revert hm; decide
          · rcases List.mem_cons.mp hm with hm | hm
            · revert hm; decide
            · rcases List.mem_append.mp hm with hm | hm
              · exact absurd (hnw _ hm) (by decide)
              · rcases List.mem_cons.mp hm with hm | hm
                · revert hm; decide
                · exact ha hm
      · revert hm; decide
  have hsplit3 : splitFirstNL
      (d :: (ds' ++ '.' :: ' ' :: (n ++ '(' :: (a ++ [')', '\n'])))) =
        some (d :: ((ds' ++ '.' :: ' ' :: (n ++ '(' :: a)) ++ [')']), []) := by
    have hform : d :: (ds' ++ '.' :: ' ' :: (n ++ '(' :: (a ++ [')', '\n']))) =
        (d :: ((ds' ++ '.' :: ' ' :: (n ++ '(' :: a)) ++ [')'])) ++ ['\n'] := by
      simp [List.append_assoc]
    rw [hform]
    exact splitFirstNL_no_nl hnonl []
  have hstrip : pyStrip (d :: ((ds' ++ '.' :: ' ' :: (n ++ '(' :: a)) ++ [')'])) =
      d :: ((ds' ++ '.' :: ' ' :: (n ++ '(' :: a)) ++ [')']) :=
    pyStrip_of_ends (digit_not_ws hd) (by decide)
  have hbuf3 : ((ds' ++ '.' :: ' ' :: (n ++ '(' :: a)) ++ [')']) ++ ['\n'] =
      ds' ++ '.' :: ' ' :: (n ++ '(' :: (a ++ ')' :: '\n' :: [])) := by
    simp [List.append_assoc]
  have hmt2 : matchThought
      (d :: (ds' ++ '.' :: ' ' :: (n ++ '(' :: (a ++ ')' :: '\n' :: [])))) = none :=
    matchThought_head_ne _ (digit_ne_T hd)
  have hac2 : actionCore
      (d :: (ds' ++ '.' :: ' ' :: (n ++ '(' :: (a ++ ')' :: '\n' :: [])))) =
        some (⟨digitsToNat (d :: ds'), n, a⟩, '\n' :: []) := by
    rw [← List.cons_append]
    exact actionCore_render hds hdsd hn hnw ha (Or.inl rfl)
  have hinst : instantiate_task litEval tools (digitsToNat (d :: ds')) n a th0 =
      .ok { idx := digitsToNat (d :: ds')
            name := n
            args := parse_llm_compiler_action_args litEval a
            dependencies := depsOf (digitsToNat (d :: ds')) a
            thought := some th0
            is_join := decide (n = joinName) } := by
    unfold instantiate_task
    rw [if_pos hreg]
  simp only [ingest_token, htok, hsplit3, match_buffer_and_generate_task,
    hstrip, List.nil_append, List.cons_append, hbuf3, hmt2, hac2, hinst]

theorem finalize_empty (litEval : List Char → Option PyValue)
    (tools : List (List Char)) {st : ParserState} (hbuf : st.buffer = []) :
    finalize litEval tools st = .ok ({ st with buffer := ['\n'] }, none) := by
  obtain ⟨b, th0⟩ := st
  have hb : b = [] := hbuf
  subst hb
  rfl

/-- The planner's stream loop: feed every token to `ingest_token` in order,
collecting the returned tasks (`Planner.plan`, planner.py). -/
def runTokens (litEval : List Char → Option PyValue) (tools : List (List Char)) :
    ParserState → List (List Char) →
      Except (ToolErr × ParserState) (ParserState × List Task)
  | st, [] => .ok (st, [])
  | st, tok :: toks =>
    match ingest_token litEval tools st tok with
    | .ok (st2, r) =>
      match runTokens litEval tools st2 toks with
      | .ok (st3, ts) => .ok (st3, r.toList ++ ts)
      | .error e => .error e
    | .error e => .error e

/-- Feed every token, then `finalize`: the full streaming parse. -/
def streamTasks (litEval : List Char → Option PyValue)
    (tools : List (List Char)) (toks : List (List Char)) :
    Except (ToolErr × ParserState) (List Task) :=
  match runTokens litEval tools init_parser_state toks with
  | .ok (st, ts) =>
    match finalize litEval tools st with
    | .ok (_, r) => .ok (ts ++ r.toList)
    | .error e => .error (e, st)
  | .error e => .error e

theorem runTokens_render (litEval : List Char → Option PyValue)
    (tools : List (List Char)) :
    ∀ (items : List PlanItem) (st : ParserState), st.buffer = [] →
      (∀ it ∈ items, WFitem it) →
      (∀ ds n a, PlanItem.action ds n a ∈ items → n = joinName ∨ n ∈ tools) →
      ∃ st2 ts, runTokens litEval tools st (items.map renderItem) =
          .ok (st2, ts) ∧ st2.buffer = [] ∧
        ts.map taskQuad = (actionsOf items).map (quadOfTriple litEval) := by
  intro items
  induction items with
  | nil =>
    intro st hbuf _ _
    exact ⟨st, [], rfl, hbuf, rfl⟩
  | cons it rest ih =>
    intro st hbuf hwf hreg
    have hwft : ∀ x ∈ rest, WFitem x :=
      fun x hx => hwf x (List.mem_cons_of_mem _ hx)
    have hregt : ∀ ds n a, PlanItem.action ds n a ∈ rest →
        n = joinName ∨ n ∈ tools :=
      fun ds n a hm => hreg ds n a (List.mem_cons_of_mem _ hm)
    cases it with
    | thought t =>
      obtain ⟨ht, -⟩ := hwf _ (List.mem_cons_self _ _)
      obtain ⟨th, hing⟩ := ingest_thought_line litEval tools hbuf ht
      obtain ⟨st2, ts, hrun, hb2, hq⟩ := ih ⟨[], th⟩ rfl hwft hregt
      refine ⟨st2, ts, ?_, hb2, hq⟩
      simp only [List.map_cons, runTokens, hing, hrun, Option.toList,
        List.nil_append]
    | action ds n a =>
      obtain ⟨hds, hdsd, hn, hnw, ha⟩ := hwf _ (List.mem_cons_self _ _)
      have hing := ingest_action_line litEval tools hbuf hds hdsd hn hnw ha
        (hreg ds n a (List.mem_cons_self _ _))
      obtain ⟨st2, ts, hrun, hb2, hq⟩ := ih ⟨[], []⟩ rfl hwft hregt
      refine ⟨st2,
        { idx := digitsToNat ds
          name := n
          args := parse_llm_compiler_action_args litEval a
          dependencies := depsOf (digitsToNat ds) a
          thought := some st.thought
          is_join := decide (n = joinName) } :: ts, ?_, hb2, ?_⟩
      · simp only [List.map_cons, runTokens, hing, hrun, Option.toList,
          List.cons_append, List.nil_append]
      · simp only [List.map_cons, actionsOf, hq]
        rfl

/-- Streaming the rendered lines and finalizing succeeds and yields one task
per action line, built from exactly the matched groups. -/
theorem streamTasks_render (litEval : List Char → Option PyValue)
    (tools : List (List Char)) {items : List PlanItem}
    (hwf : ∀ it ∈ items, WFitem it)
    (hreg : ∀ ds n a, PlanItem.action ds n a ∈ items →
      n = joinName ∨ n ∈ tools) :
    ∃ ts, streamTasks litEval tools (items.map renderItem) = .ok ts ∧
      ts.map taskQuad = (actionsOf items).map (quadOfTriple litEval) := by
  obtain ⟨st2, ts, hrun, hb2, hq⟩ :=
    runTokens_render litEval tools items init_parser_state rfl hwf hreg
  refine ⟨ts, ?_, hq⟩
  simp only [streamTasks, hrun, finalize_empty litEval tools hb2,
    Option.toList, List.append_nil]

end TinyAgentSpec

namespace TinyAgentSpec

/-- Claim C1 (amended): for every well-formed rendered plan — Thought and
Action lines, action names registered or `join`, pairwise distinct action
indices, `join` at most as the last action — feeding the lines one at a
time through the streaming parser (`ingest_token` per line, then
`finalize`) succeeds and yields exactly the same sequence of tasks as
`parse_plan` on the concatenated text, agreeing in idx, tool_name, args
and is_join (the thought fields differ, see the counterexample). -/
theorem streaming_batch_agree (litEval : List Char → Option PyValue)
    (tools : List (List Char)) (items : List PlanItem)
    (hwf : ∀ it ∈ items, WFitem it)
    (hreg : ∀ ds n a, PlanItem.action ds n a ∈ items →
      n = joinName ∨ n ∈ tools)
    (hnodup : ((actionsOf items).map (fun x => x.1)).Nodup)
    (hjoin : ∀ x ∈ (actionsOf items).dropLast, ¬ x.2.1 = joinName) :
    ∃ ts, streamTasks litEval tools (items.map renderItem) = .ok ts ∧
      ts.map taskQuad =
        (parse_plan litEval (render items)).map (fun p => taskQuad p.2) := by
  obtain ⟨ts, hst, hq⟩ := streamTasks_render litEval tools hwf hreg
  exact ⟨ts, hst, by rw [hq, parse_plan_quads litEval hwf hnodup hjoin]⟩

theorem streaming_batch_agree_witness :
    ∃ ts, streamTasks (fun _ => none) [("search").toList]
        ([.thought ("Look it up").toList,
          .action ("1").toList ("search").toList ("'x'").toList,
          .action ("2").toList ("join").toList []].map renderItem) = .ok ts ∧
      ts.map taskQuad =
        (parse_plan (fun _ => none)
          (render [.thought ("Look it up").toList,
            .action ("1").toList ("search").toList ("'x'").toList,
            .action ("2").toList ("join").toList []])).map
          (fun p => taskQuad p.2) :=
  streaming_batch_agree (fun _ => none) [("search").toList]
    [.thought ("Look it up").toList,
     .action ("1").toList ("search").toList ("'x'").toList,
     .action ("2").toList ("join").toList []]
    (by
      intro it hm
      rcases List.mem_cons.mp hm with rfl | hm
      · exact ⟨by decide, by decide⟩
      rcases List.mem_cons.mp hm with rfl | hm
      · exact ⟨by decide, by decide, by decide, by decide, by decide⟩
      rcases List.mem_cons.mp hm with rfl | hm
      · exact ⟨by decide, by decide, by decide, by decide, by decide⟩
      · simp at hm)
    (by
      intro ds n a hm
      rcases List.mem_cons.mp hm with hm | hm
      · exact absurd hm (by simp)
      rcases List.mem_cons.mp hm with hm | hm
      · injection hm with h1 h2 h3
        subst h2
        exact Or.inr (by decide)
      rcases List.mem_cons.mp hm with hm | hm
      · injection hm with h1 h2 h3
        subst h2
        exact Or.inl (by decide)
      · simp at hm)
    (by decide)
    (by decide)

/-- Claim C1, counterexample: on the plan text `"1. join()\n"`, fed as a
single token, the streamed task carries `thought = some ""` while the batch
task from `parse_plan` has `thought = none`: the two parses do not agree on
the `thought` field, only on the remaining ones. -/
theorem streaming_batch_thought_differs :
    (∃ ts, streamTasks (fun _ => none) [] [("1. join()\n").toList] =
        .ok ts ∧ ts.map (fun t => t.thought) = [some []]) ∧
      (parse_plan (fun _ => none) (("1. join()\n").toList)).map
        (fun p => p.2.thought) = [none] := by
  constructor
  · exact ⟨_, rfl, rfl⟩
  · rfl

end TinyAgentSpec
